import Mathlib

set_option maxHeartbeats 1000000

/-!
Verification of the expression parser of the repository (src/parser.rs and
src/term.rs).  The parser is a nom-based recursive-descent parser for a small
expression language with booleans, signed 64-bit integer literals, right-nested
addition and a ternary conditional.  The Rust functions are embedded as fueled
Lean functions over lists of characters; the fuel is an upper bound on the
recursion depth, and a stability theorem shows the results are independent of
the fuel once it is at least linear in the input length.
-/

namespace Shikumi

/-- The AST type of the parser, mirroring the Rust enum Term in src/term.rs. -/
inductive Term where
  | true : Term
  | false : Term
  | condition (condition consequent alternative : Term) : Term
  | number (value : Int) : Term
  | addition (left right : Term) : Term
deriving DecidableEq

/-- The opaque parse error value, mirroring struct ParseError in src/parser.rs. -/
inductive ParseError where
  | mk : ParseError
deriving DecidableEq

/-- Whitespace characters matched by nom multispace0: space, tab, CR, LF. -/
def isWhitespaceChar (c : Char) : Bool :=
  c == ' ' || c == '\t' || c == '\r' || c == '\n'

/-- nom multispace0: drop all leading whitespace characters. -/
def multispace0 (s : List Char) : List Char :=
  s.dropWhile isWhitespaceChar

/-- nom char parser: consume exactly the given character. -/
def charP (c : Char) : List Char → Option (List Char)
  | [] => none
  | x :: xs => if x = c then some xs else none

/-- nom tag parser: consume exactly the given literal. -/
def tagP : List Char → List Char → Option (List Char)
  | [], s => some s
  | _ :: _, [] => none
  | t :: ts, x :: xs => if x = t then tagP ts xs else none

/-- The whitespace wrapper of src/parser.rs applied to a single-character
token: delimited(multispace0, char(c), multispace0). -/
def wsChar (c : Char) (s : List Char) : Option (List Char) :=
  match charP c (multispace0 s) with
  | none => none
  | some r => some (multispace0 r)

/-- Smallest value of a signed 64-bit integer. -/
def i64Min : Int := -9223372036854775808

/-- Largest value of a signed 64-bit integer. -/
def i64Max : Int := 9223372036854775807

/-- Decimal value of a digit character, as used by to_digit(10) in nom. -/
def digitVal (c : Char) : Option Nat :=
  if c.isDigit then some (c.toNat - 48) else none

/-- One accumulation step of the digit loop of nom i64: shift the value by one
decimal digit, subtracting for negative numbers as checked_sub does. -/
def digitStep (neg : Bool) (v : Int) (d : Nat) : Int :=
  if neg then v * 10 - (d : Int) else v * 10 + (d : Int)

/-- The digit loop of nom character::complete::i64: accumulate decimal digits
with checked 64-bit arithmetic, fail on overflow, fail if no digit has been
read when a non-digit is met, and stop in front of the first non-digit
otherwise. -/
def digitLoop (neg : Bool) : Int → Nat → List Char → Option (List Char × Int)
  | v, _, [] => some ([], v)
  | v, pos, c :: s =>
    match digitVal c with
    | none => if pos = 0 then none else some (c :: s, v)
    | some d =>
      if digitStep neg v d < i64Min ∨ i64Max < digitStep neg v d then none
      else digitLoop neg (digitStep neg v d) (pos + 1) s

/-- The optional sign of nom i64; the Bool is true when a minus was consumed. -/
def signP : List Char → List Char × Bool
  | [] => ([], Bool.false)
  | c :: s =>
    if c = '-' then (s, Bool.true)
    else if c = '+' then (s, Bool.false)
    else (c :: s, Bool.false)

/-- nom character::complete::i64 on the remaining input. -/
def nomI64 (input : List Char) : Option (List Char × Int) :=
  match signP input with
  | (i, neg) =>
    match i with
    | [] => none
    | _ :: _ => digitLoop neg 0 0 i

/-- The number rule of src/parser.rs: whitespace-wrapped i64, as a Term. -/
def number (s : List Char) : Option (List Char × Term) :=
  match nomI64 (multispace0 s) with
  | none => none
  | some (r, v) => some (multispace0 r, Term.number v)

/-- Characters of the literal true. -/
def trueTag : List Char := ['t', 'r', 'u', 'e']

/-- Characters of the literal false. -/
def falseTag : List Char := ['f', 'a', 'l', 's', 'e']

/-- The boolean rule of src/parser.rs: whitespace-wrapped tag true, else
whitespace-wrapped tag false. -/
def boolean (s : List Char) : Option (List Char × Term) :=
  match tagP trueTag (multispace0 s) with
  | some r => some (multispace0 r, Term.true)
  | none =>
    match tagP falseTag (multispace0 s) with
    | some r => some (multispace0 r, Term.false)
    | none => none

mutual

/-- The expr rule of src/parser.rs (condition level), with explicit fuel:
a term, optionally followed by a whitespace-wrapped question mark, an expr,
a whitespace-wrapped colon and an expr; any failure inside the optional part
backtracks to the bare term. -/
def expr : Nat → List Char → Option (List Char × Term)
  | 0, _ => none
  | n + 1, s =>
    match term n s with
    | none => none
    | some (s1, c) =>
      match wsChar '?' s1 with
      | none => some (s1, c)
      | some s2 =>
        match expr n s2 with
        | none => some (s1, c)
        | some (s3, q) =>
          match wsChar ':' s3 with
          | none => some (s1, c)
          | some s4 =>
            match expr n s4 with
            | none => some (s1, c)
            | some (s5, a) => some (s5, Term.condition c q a)

/-- The term rule of src/parser.rs (addition level), with explicit fuel:
a factor followed by many0 of (whitespace-wrapped plus, term), folded from
the left into Addition nodes. -/
def term : Nat → List Char → Option (List Char × Term)
  | 0, _ => none
  | n + 1, s =>
    match factor n s with
    | none => none
    | some (s1, t) =>
      match many0Plus n s1 with
      | none => none
      | some (s2, ts) =>
        some (s2, ts.foldl (fun left right => Term.addition left right) t)

/-- The factor rule of src/parser.rs (atoms), with explicit fuel: number,
else boolean, else a parenthesized expr. -/
def factor : Nat → List Char → Option (List Char × Term)
  | 0, _ => none
  | n + 1, s =>
    match number s with
    | some r => some r
    | none =>
      match boolean s with
      | some r => some r
      | none =>
        match wsChar '(' s with
        | none => none
        | some s1 =>
          match expr n s1 with
          | none => none
          | some (s2, t) =>
            match wsChar ')' s2 with
            | none => none
            | some s3 => some (s3, t)

/-- The many0 of (whitespace-wrapped plus, term) inside the term rule,
including the zero-consumption protection of nom many0. -/
def many0Plus : Nat → List Char → Option (List Char × List Term)
  | 0, _ => none
  | n + 1, s =>
    match wsChar '+' s with
    | none => some (s, [])
    | some s0 =>
      match term n s0 with
      | none => some (s, [])
      | some (s1, t) =>
        if s1 = s then none
        else
          match many0Plus n s1 with
          | none => none
          | some (s2, ts) => some (s2, t :: ts)

end

/-- The inner parser of the many0 inside the term rule:
(whitespace(char plus), term). -/
def plusTerm (n : Nat) (s : List Char) : Option (List Char × Term) :=
  match wsChar '+' s with
  | none => none
  | some s0 => term n s0

/-- The public entry point parse of src/parser.rs: run expr, then require
end of input; any failure collapses to the opaque ParseError. -/
def parse (input : String) : Except ParseError Term :=
  match expr (3 * input.length + 3) input.data with
  | none => Except.error ParseError.mk
  | some (r, t) => if r = [] then Except.ok t else Except.error ParseError.mk

instance : DecidableEq (Except ParseError Term) := fun a b =>
  match a, b with
  | .ok x, .ok y =>
    if h : x = y then isTrue (by rw [h]) else isFalse (by simp [h])
  | .error x, .error y => isTrue (by cases x; cases y; rfl)
  | .ok _, .error _ => isFalse (by simp)
  | .error _, .ok _ => isFalse (by simp)

section BasicLemmas

theorem ms0_nil : multispace0 [] = [] := rfl

theorem ms0_cons_ws {c : Char} (h : isWhitespaceChar c = true) (s : List Char) :
    multispace0 (c :: s) = multispace0 s := by
  simp [multispace0, List.dropWhile, h]

theorem ms0_cons_not {c : Char} (h : isWhitespaceChar c = false) (s : List Char) :
    multispace0 (c :: s) = c :: s := by
  simp [multispace0, List.dropWhile, h]

theorem ms0_append_ws {w : List Char} (h : ∀ c ∈ w, isWhitespaceChar c = true)
    (s : List Char) : multispace0 (w ++ s) = multispace0 s := by
  induction w with
  | nil => rfl
  | cons c cs ih =>
    have hc : isWhitespaceChar c = true := h c (by simp)
    have ihs := ih (fun d hd => h d (by simp [hd]))
    simpa [ms0_cons_ws hc] using ihs

theorem ms0_ws_only {w : List Char} (h : ∀ c ∈ w, isWhitespaceChar c = true) :
    multispace0 w = [] := by
  have := ms0_append_ws h ([] : List Char)
  simpa using this

theorem ms0_idem (s : List Char) : multispace0 (multispace0 s) = multispace0 s := by
  induction s with
  | nil => rfl
  | cons c cs ih =>
    by_cases hc : isWhitespaceChar c = true
    · simpa [ms0_cons_ws hc] using ih
    · have hc2 : isWhitespaceChar c = false := by
        cases h : isWhitespaceChar c with
        | true => exact absurd h hc
        | false => rfl
      rw [ms0_cons_not hc2, ms0_cons_not hc2]

theorem ms0_length (s : List Char) : (multispace0 s).length ≤ s.length := by
  induction s with
  | nil => exact Nat.le_refl _
  | cons c cs ih =>
    by_cases hc : isWhitespaceChar c = true
    · rw [ms0_cons_ws hc]
      exact Nat.le_succ_of_le ih
    · have hc2 : isWhitespaceChar c = false := by
        cases h : isWhitespaceChar c with
        | true => exact absurd h hc
        | false => rfl
      rw [ms0_cons_not hc2]

theorem charP_some {c : Char} {s r : List Char} (h : charP c s = some r) :
    s = c :: r := by
  cases s with
  | nil => simp [charP] at h
  | cons x xs =>
    simp only [charP] at h
    by_cases hx : x = c
    · simp [hx] at h
      rw [hx, h]
    · simp [hx] at h

theorem charP_cons_self (c : Char) (s : List Char) : charP c (c :: s) = some s := by
  simp [charP]

theorem charP_cons_ne {c x : Char} (h : ¬x = c) (s : List Char) :
    charP c (x :: s) = none := by
  simp [charP, h]

theorem wsChar_length {c : Char} {s r : List Char} (h : wsChar c s = some r) :
    r.length < s.length := by
  unfold wsChar at h
  cases hc : charP c (multispace0 s) with
  | none => rw [hc] at h; exact absurd h (by simp)
  | some r0 =>
    rw [hc] at h
    simp only [Option.some.injEq] at h
    have h1 : multispace0 s = c :: r0 := charP_some hc
    have h2 : r0.length + 1 = (multispace0 s).length := by rw [h1]; simp
    have h3 : (multispace0 r0).length ≤ r0.length := ms0_length r0
    have h4 := ms0_length s
    rw [← h]
    omega

theorem wsChar_ms0 (c : Char) (s : List Char) :
    wsChar c (multispace0 s) = wsChar c s := by
  unfold wsChar
  rw [ms0_idem]

theorem tagP_length {t s r : List Char} (h : tagP t s = some r) :
    s.length = t.length + r.length := by
  induction t generalizing s with
  | nil =>
    simp [tagP] at h
    rw [← h]
    simp
  | cons a ts ih =>
    cases s with
    | nil => simp [tagP] at h
    | cons x xs =>
      simp only [tagP] at h
      by_cases hx : x = a
      · simp only [hx, if_pos rfl] at h
        have := ih h
        simp [this]
        omega
      · simp [hx] at h

theorem tagP_append (t s : List Char) : tagP t (t ++ s) = some s := by
  induction t with
  | nil => rfl
  | cons a ts ih => simp [tagP, ih]

theorem tagP_ne_head {a x : Char} (h : ¬x = a) (ts xs : List Char) :
    tagP (a :: ts) (x :: xs) = none := by
  simp [tagP, h]

theorem digitLoop_length {neg : Bool} {v : Int} {p : Nat} {l r : List Char}
    {w : Int} (h : digitLoop neg v p l = some (r, w)) : r.length ≤ l.length := by
  induction l generalizing v p with
  | nil =>
    simp [digitLoop] at h
    simp [h.1]
  | cons c cs ih =>
    simp only [digitLoop] at h
    cases hd : digitVal c with
    | none =>
      rw [hd] at h
      by_cases hp : p = 0
      · simp [hp] at h
      · simp only [if_neg hp, Option.some.injEq, Prod.mk.injEq] at h
        rw [← h.1]
    | some d =>
      rw [hd] at h
      simp only at h
      by_cases hv : digitStep neg v d < i64Min ∨ i64Max < digitStep neg v d
      · rw [if_pos hv] at h
        exact absurd h (by simp)
      · rw [if_neg hv] at h
        have := ih h
        exact Nat.le_succ_of_le this

theorem digitLoop_zero_length {neg : Bool} {v : Int} {c : Char} {cs r : List Char}
    {w : Int} (h : digitLoop neg v 0 (c :: cs) = some (r, w)) :
    r.length < (c :: cs).length := by
  simp only [digitLoop] at h
  cases hd : digitVal c with
  | none => rw [hd] at h; simp at h
  | some d =>
    rw [hd] at h
    simp only at h
    by_cases hv : digitStep neg v d < i64Min ∨ i64Max < digitStep neg v d
    · rw [if_pos hv] at h
      exact absurd h (by simp)
    · rw [if_neg hv] at h
      have := digitLoop_length h
      simp only [List.length_cons]
      omega

theorem nomI64_length {s r : List Char} {v : Int} (h : nomI64 s = some (r, v)) :
    r.length < s.length := by
  unfold nomI64 at h
  cases s with
  | nil => simp [signP] at h
  | cons c cs =>
    simp only [signP] at h
    by_cases hm : c = '-'
    · simp only [if_pos hm] at h
      cases cs with
      | nil => simp at h
      | cons d ds =>
        simp only at h
        have := digitLoop_zero_length h
        simp only [List.length_cons] at this ⊢
        omega
    · simp only [if_neg hm] at h
      by_cases hp : c = '+'
      · simp only [if_pos hp] at h
        cases cs with
        | nil => simp at h
        | cons d ds =>
          simp only at h
          have := digitLoop_zero_length h
          simp only [List.length_cons] at this ⊢
          omega
      · simp only [if_neg hp] at h
        exact digitLoop_zero_length h

theorem number_length {s r : List Char} {t : Term} (h : number s = some (r, t)) :
    r.length < s.length := by
  unfold number at h
  cases hn : nomI64 (multispace0 s) with
  | none => rw [hn] at h; exact absurd h (by simp)
  | some p =>
    obtain ⟨r0, v⟩ := p
    rw [hn] at h
    simp only [Option.some.injEq, Prod.mk.injEq] at h
    have h1 := nomI64_length hn
    have h2 := ms0_length s
    have h3 := ms0_length r0
    rw [← h.1]
    omega

theorem boolean_length {s r : List Char} {t : Term} (h : boolean s = some (r, t)) :
    r.length < s.length := by
  unfold boolean at h
  cases ht : tagP trueTag (multispace0 s) with
  | some r0 =>
    rw [ht] at h
    simp only [Option.some.injEq, Prod.mk.injEq] at h
    have h1 := tagP_length ht
    have h2 := ms0_length s
    have h3 := ms0_length r0
    rw [← h.1]
    simp only [trueTag, List.length_cons, List.length_nil] at h1
    omega
  | none =>
    rw [ht] at h
    cases hf : tagP falseTag (multispace0 s) with
    | none => rw [hf] at h; exact absurd h (by simp)
    | some r0 =>
      rw [hf] at h
      simp only [Option.some.injEq, Prod.mk.injEq] at h
      have h1 := tagP_length hf
      have h2 := ms0_length s
      have h3 := ms0_length r0
      rw [← h.1]
      simp only [falseTag, List.length_cons, List.length_nil] at h1
      omega

theorem expr_zero (s : List Char) : expr 0 s = none := rfl

theorem term_zero (s : List Char) : term 0 s = none := rfl

theorem factor_zero (s : List Char) : factor 0 s = none := rfl

theorem many0Plus_zero (s : List Char) : many0Plus 0 s = none := rfl

theorem expr_succ (n : Nat) (s : List Char) :
    expr (n + 1) s =
      match term n s with
      | none => none
      | some (s1, c) =>
        match wsChar '?' s1 with
        | none => some (s1, c)
        | some s2 =>
          match expr n s2 with
          | none => some (s1, c)
          | some (s3, q) =>
            match wsChar ':' s3 with
            | none => some (s1, c)
            | some s4 =>
              match expr n s4 with
              | none => some (s1, c)
              | some (s5, a) => some (s5, Term.condition c q a) := by
  rw [expr]

theorem term_succ (n : Nat) (s : List Char) :
    term (n + 1) s =
      match factor n s with
      | none => none
      | some (s1, t) =>
        match many0Plus n s1 with
        | none => none
        | some (s2, ts) =>
          some (s2, ts.foldl (fun left right => Term.addition left right) t) := by
  rw [term]

theorem factor_succ (n : Nat) (s : List Char) :
    factor (n + 1) s =
      match number s with
      | some r => some r
      | none =>
        match boolean s with
        | some r => some r
        | none =>
          match wsChar '(' s with
          | none => none
          | some s1 =>
            match expr n s1 with
            | none => none
            | some (s2, t) =>
              match wsChar ')' s2 with
              | none => none
              | some s3 => some (s3, t) := by
  rw [factor]

theorem many0Plus_succ (n : Nat) (s : List Char) :
    many0Plus (n + 1) s =
      match wsChar '+' s with
      | none => some (s, [])
      | some s0 =>
        match term n s0 with
        | none => some (s, [])
        | some (s1, t) =>
          if s1 = s then none
          else
            match many0Plus n s1 with
            | none => none
            | some (s2, ts) => some (s2, t :: ts) := by
  rw [many0Plus]

theorem lengthAll : ∀ n : Nat,
    (∀ s r t, expr n s = some (r, t) → r.length < s.length) ∧
    (∀ s r t, term n s = some (r, t) → r.length < s.length) ∧
    (∀ s r t, factor n s = some (r, t) → r.length < s.length) ∧
    (∀ s r ts, many0Plus n s = some (r, ts) → r.length ≤ s.length) := by
  intro n
  induction n with
  | zero =>
    refine ⟨?_, ?_, ?_, ?_⟩ <;> intro s r t h <;>
      simp [expr_zero, term_zero, factor_zero, many0Plus_zero] at h
  | succ n ih =>
    obtain ⟨ihE, ihT, ihF, ihM⟩ := ih
    refine ⟨?_, ?_, ?_, ?_⟩
    · intro s r t h
      rw [expr_succ] at h
      split at h
      · exact absurd h (by simp)
      · rename_i s1 c hT
        split at h
        · simp only [Option.some.injEq, Prod.mk.injEq] at h
          rw [← h.1]
          exact ihT s s1 c hT
        · rename_i s2 hQ
          split at h
          · simp only [Option.some.injEq, Prod.mk.injEq] at h
            rw [← h.1]
            exact ihT s s1 c hT
          · rename_i s3 q hE1
            split at h
            · simp only [Option.some.injEq, Prod.mk.injEq] at h
              rw [← h.1]
              exact ihT s s1 c hT
            · rename_i s4 hC
              split at h
              · simp only [Option.some.injEq, Prod.mk.injEq] at h
                rw [← h.1]
                exact ihT s s1 c hT
              · rename_i s5 a hE2
                simp only [Option.some.injEq, Prod.mk.injEq] at h
                have h1 := ihT s s1 c hT
                have h2 := wsChar_length hQ
                have h3 := ihE s2 s3 q hE1
                have h4 := wsChar_length hC
                have h5 := ihE s4 s5 a hE2
                rw [← h.1]
                omega
    · intro s r t h
      rw [term_succ] at h
      split at h
      · exact absurd h (by simp)
      · rename_i s1 t1 hF
        split at h
        · exact absurd h (by simp)
        · rename_i s2 ts hM
          simp only [Option.some.injEq, Prod.mk.injEq] at h
          have h1 := ihF s s1 t1 hF
          have h2 := ihM s1 s2 ts hM
          rw [← h.1]
          omega
    · intro s r t h
      rw [factor_succ] at h
      split at h
      · rename_i p hN
        obtain ⟨r0, t0⟩ := p
        simp only [Option.some.injEq, Prod.mk.injEq] at h
        rw [← h.1]
        exact number_length hN
      · rename_i hN
        split at h
        · rename_i p hB
          obtain ⟨r0, t0⟩ := p
          simp only [Option.some.injEq, Prod.mk.injEq] at h
          rw [← h.1]
          exact boolean_length hB
        · rename_i hB
          split at h
          · exact absurd h (by simp)
          · rename_i s1 hL
            split at h
            · exact absurd h (by simp)
            · rename_i s2 t2 hE
              split at h
              · exact absurd h (by simp)
              · rename_i s3 hR
                simp only [Option.some.injEq, Prod.mk.injEq] at h
                have h1 := wsChar_length hL
                have h2 := ihE s1 s2 t2 hE
                have h3 := wsChar_length hR
                rw [← h.1]
                omega
    · intro s r ts h
      rw [many0Plus_succ] at h
      split at h
      · simp only [Option.some.injEq, Prod.mk.injEq] at h
        rw [← h.1]
      · rename_i s0 hP
        split at h
        · simp only [Option.some.injEq, Prod.mk.injEq] at h
          rw [← h.1]
        · rename_i s1 t1 hT
          split at h
          · exact absurd h (by simp)
          · rename_i hne
            split at h
            · exact absurd h (by simp)
            · rename_i s2 ts2 hM
              simp only [Option.some.injEq, Prod.mk.injEq] at h
              have h1 := wsChar_length hP
              have h2 := ihT s0 s1 t1 hT
              have h3 := ihM s1 s2 ts2 hM
              rw [← h.1]
              omega

theorem expr_length {n : Nat} {s r : List Char} {t : Term}
    (h : expr n s = some (r, t)) : r.length < s.length :=
  (lengthAll n).1 s r t h

theorem term_length {n : Nat} {s r : List Char} {t : Term}
    (h : term n s = some (r, t)) : r.length < s.length :=
  (lengthAll n).2.1 s r t h

theorem factor_length {n : Nat} {s r : List Char} {t : Term}
    (h : factor n s = some (r, t)) : r.length < s.length :=
  (lengthAll n).2.2.1 s r t h

theorem many0Plus_length {n : Nat} {s r : List Char} {ts : List Term}
    (h : many0Plus n s = some (r, ts)) : r.length ≤ s.length :=
  (lengthAll n).2.2.2 s r ts h

theorem plusTerm_length {n : Nat} {s r : List Char} {t : Term}
    (h : plusTerm n s = some (r, t)) : r.length < s.length := by
  unfold plusTerm at h
  cases hw : wsChar '+' s with
  | none => rw [hw] at h; exact absurd h (by simp)
  | some s0 =>
    rw [hw] at h
    have h1 := wsChar_length hw
    have h2 := term_length h
    omega

theorem number_ms0 (s : List Char) : number (multispace0 s) = number s := by
  unfold number
  rw [ms0_idem]

theorem boolean_ms0 (s : List Char) : boolean (multispace0 s) = boolean s := by
  unfold boolean
  rw [ms0_idem]

theorem factor_ms0 (n : Nat) (s : List Char) :
    factor n (multispace0 s) = factor n s := by
  cases n with
  | zero => rfl
  | succ n =>
    rw [factor_succ, factor_succ, number_ms0, boolean_ms0, wsChar_ms0]

theorem term_ms0 (n : Nat) (s : List Char) :
    term n (multispace0 s) = term n s := by
  cases n with
  | zero => rfl
  | succ n => rw [term_succ, term_succ, factor_ms0]

theorem expr_ms0 (n : Nat) (s : List Char) :
    expr n (multispace0 s) = expr n s := by
  cases n with
  | zero => rfl
  | succ n => rw [expr_succ, expr_succ, term_ms0]

end BasicLemmas

section Stability

theorem stepAll : ∀ n : Nat,
    (∀ s : List Char, 3 * s.length + 3 ≤ n → expr (n + 1) s = expr n s) ∧
    (∀ s : List Char, 3 * s.length + 2 ≤ n → term (n + 1) s = term n s) ∧
    (∀ s : List Char, 3 * s.length + 1 ≤ n → factor (n + 1) s = factor n s) ∧
    (∀ s : List Char, 3 * s.length + 2 ≤ n → many0Plus (n + 1) s = many0Plus n s) := by
  intro n
  induction n with
  | zero =>
    refine ⟨?_, ?_, ?_, ?_⟩ <;> intro s hs <;> omega
  | succ n ih =>
    obtain ⟨ihE, ihT, ihF, ihM⟩ := ih
    refine ⟨?_, ?_, ?_, ?_⟩
    · intro s hs
      rw [expr_succ (n + 1) s, expr_succ n s]
      rw [ihT s (by omega)]
      cases hT : term n s with
      | none => rfl
      | some p =>
        obtain ⟨s1, c⟩ := p
        simp only
        cases hQ : wsChar '?' s1 with
        | none => rfl
        | some s2 =>
          simp only
          have hs1 : s1.length < s.length := term_length hT
          have hs2 : s2.length < s1.length := wsChar_length hQ
          rw [ihE s2 (by omega)]
          cases hE1 : expr n s2 with
          | none => rfl
          | some p2 =>
            obtain ⟨s3, q⟩ := p2
            simp only
            cases hC : wsChar ':' s3 with
            | none => rfl
            | some s4 =>
              simp only
              have hs3 : s3.length < s2.length := expr_length hE1
              have hs4 : s4.length < s3.length := wsChar_length hC
              rw [ihE s4 (by omega)]
    · intro s hs
      rw [term_succ (n + 1) s, term_succ n s]
      rw [ihF s (by omega)]
      cases hF : factor n s with
      | none => rfl
      | some p =>
        obtain ⟨s1, t⟩ := p
        simp only
        have hs1 : s1.length < s.length := factor_length hF
        rw [ihM s1 (by omega)]
    · intro s hs
      rw [factor_succ (n + 1) s, factor_succ n s]
      cases hN : number s with
      | some r => rfl
      | none =>
        simp only
        cases hB : boolean s with
        | some r => rfl
        | none =>
          simp only
          cases hL : wsChar '(' s with
          | none => rfl
          | some s1 =>
            simp only
            have hs1 : s1.length < s.length := wsChar_length hL
            rw [ihE s1 (by omega)]
    · intro s hs
      rw [many0Plus_succ (n + 1) s, many0Plus_succ n s]
      cases hP : wsChar '+' s with
      | none => rfl
      | some s0 =>
        simp only
        have hs0 : s0.length < s.length := wsChar_length hP
        rw [ihT s0 (by omega)]
        cases hT : term n s0 with
        | none => rfl
        | some p =>
          obtain ⟨s1, t⟩ := p
          simp only
          by_cases hne : s1 = s
          · simp [hne]
          · simp only [if_neg hne]
            have hs1 : s1.length < s0.length := term_length hT
            rw [ihM s1 (by omega)]

theorem expr_stable (s : List Char) (m n : Nat) (hm : 3 * s.length + 3 ≤ m)
    (hmn : m ≤ n) : expr n s = expr m s := by
  induction n with
  | zero => omega
  | succ n ih =>
    rcases Nat.lt_or_ge m (n + 1) with hlt | hge
    · have h1 := ih (by omega)
      have h2 : expr (n + 1) s = expr n s := (stepAll n).1 s (by omega)
      rw [h2, h1]
    · have heq : m = n + 1 := by omega
      rw [heq]

theorem term_stable (s : List Char) (m n : Nat) (hm : 3 * s.length + 2 ≤ m)
    (hmn : m ≤ n) : term n s = term m s := by
  induction n with
  | zero => omega
  | succ n ih =>
    rcases Nat.lt_or_ge m (n + 1) with hlt | hge
    · have h1 := ih (by omega)
      have h2 : term (n + 1) s = term n s := (stepAll n).2.1 s (by omega)
      rw [h2, h1]
    · have heq : m = n + 1 := by omega
      rw [heq]

theorem factor_stable (s : List Char) (m n : Nat) (hm : 3 * s.length + 1 ≤ m)
    (hmn : m ≤ n) : factor n s = factor m s := by
  induction n with
  | zero => omega
  | succ n ih =>
    rcases Nat.lt_or_ge m (n + 1) with hlt | hge
    · have h1 := ih (by omega)
      have h2 : factor (n + 1) s = factor n s := (stepAll n).2.2.1 s (by omega)
      rw [h2, h1]
    · have heq : m = n + 1 := by omega
      rw [heq]

theorem many0Plus_stable (s : List Char) (m n : Nat) (hm : 3 * s.length + 2 ≤ m)
    (hmn : m ≤ n) : many0Plus n s = many0Plus m s := by
  induction n with
  | zero => omega
  | succ n ih =>
    rcases Nat.lt_or_ge m (n + 1) with hlt | hge
    · have h1 := ih (by omega)
      have h2 : many0Plus (n + 1) s = many0Plus n s := (stepAll n).2.2.2 s (by omega)
      rw [h2, h1]
    · have heq : m = n + 1 := by omega
      rw [heq]

theorem plusTerm_stable (s : List Char) (m n : Nat) (hm : 3 * s.length + 2 ≤ m)
    (hmn : m ≤ n) : plusTerm n s = plusTerm m s := by
  unfold plusTerm
  cases hP : wsChar '+' s with
  | none => rfl
  | some s0 =>
    have hs0 : s0.length < s.length := wsChar_length hP
    exact term_stable s0 m n (by omega) hmn

end Stability

section DigitSemantics

/-- Pure value of an all-digit string under the accumulation discipline of the
digit loop, with the same overflow checks and no remainder handling. -/
def digitsVal (neg : Bool) : Int → List Char → Option Int
  | v, [] => some v
  | v, c :: cs =>
    match digitVal c with
    | none => none
    | some d =>
      if digitStep neg v d < i64Min ∨ i64Max < digitStep neg v d then none
      else digitsVal neg (digitStep neg v d) cs

theorem digitsVal_append (neg : Bool) (xs ys : List Char) : ∀ v : Int,
    digitsVal neg v (xs ++ ys) =
      match digitsVal neg v xs with
      | none => none
      | some w => digitsVal neg w ys := by
  induction xs with
  | nil => intro v; rfl
  | cons c cs ih =>
    intro v
    simp only [List.cons_append, digitsVal]
    cases hd : digitVal c with
    | none => simp only [hd]
    | some d =>
      simp only [hd]
      by_cases hv : digitStep neg v d < i64Min ∨ i64Max < digitStep neg v d
      · rw [if_pos hv, if_pos hv]
      · rw [if_neg hv, if_neg hv]
        rw [show cs.append ys = cs ++ ys from rfl, ih]

theorem digitLoop_append {ds : List Char} (hds : ∀ c ∈ ds, c.isDigit = true)
    (neg : Bool) (rest : List Char) : ∀ (v : Int) (p : Nat),
    digitLoop neg v p (ds ++ rest) =
      match digitsVal neg v ds with
      | none => none
      | some w => digitLoop neg w (p + ds.length) rest := by
  induction ds with
  | nil => intro v p; simp [digitsVal]
  | cons c cs ih =>
    intro v p
    have hc : c.isDigit = true := hds c (by simp)
    have hcs : ∀ x ∈ cs, x.isDigit = true := fun x hx => hds x (by simp [hx])
    have hcd : digitVal c = some (c.toNat - 48) := by simp [digitVal, hc]
    simp only [List.cons_append, digitLoop, digitsVal, hcd]
    by_cases hv : digitStep neg v (c.toNat - 48) < i64Min ∨
        i64Max < digitStep neg v (c.toNat - 48)
    · rw [if_pos hv, if_pos hv]
    · rw [if_neg hv, if_neg hv]
      rw [show cs.append rest = cs ++ rest from rfl, ih hcs]
      cases hdv : digitsVal neg (digitStep neg v (c.toNat - 48)) cs with
      | none => rfl
      | some w =>
        simp only [List.length_cons]
        have hl : p + 1 + cs.length = p + (cs.length + 1) := by omega
        rw [hl]

theorem digitLoop_digits {ds : List Char} (hne : ds ≠ [])
    (hds : ∀ c ∈ ds, c.isDigit = true) {rest : List Char}
    (hrest : ∀ c, rest.head? = some c → c.isDigit = false) (neg : Bool) (v : Int) :
    digitLoop neg v 0 (ds ++ rest) =
      match digitsVal neg v ds with
      | none => none
      | some w => some (rest, w) := by
  rw [digitLoop_append hds neg rest v 0]
  cases hdv : digitsVal neg v ds with
  | none => rfl
  | some w =>
    simp only
    cases rest with
    | nil => simp [digitLoop]
    | cons c rs =>
      have hc : c.isDigit = false := hrest c rfl
      have hcd : digitVal c = none := by simp [digitVal, hc]
      simp only [digitLoop, hcd]
      rw [if_neg (show ¬(0 + ds.length = 0) by
        cases ds with
        | nil => exact absurd rfl hne
        | cons x xs => simp)]

/-- The character of a decimal digit. -/
def digitChar (d : Nat) : Char := Char.ofNat (48 + d)

theorem digitChar_isDigit {d : Nat} (hd : d < 10) : (digitChar d).isDigit = true := by
  interval_cases d <;> decide

theorem digitVal_digitChar {d : Nat} (hd : d < 10) : digitVal (digitChar d) = some d := by
  interval_cases d <;> decide

/-- Decimal digit string of a natural number, most significant digit first. -/
def natDigits (n : Nat) : List Char :=
  if n < 10 then [digitChar n]
  else natDigits (n / 10) ++ [digitChar (n % 10)]
termination_by n
decreasing_by exact Nat.div_lt_self (by omega) (by omega)

theorem natDigits_ne_nil (n : Nat) : natDigits n ≠ [] := by
  rw [natDigits]
  by_cases hn : n < 10
  · rw [if_pos hn]; simp
  · rw [if_neg hn]; simp

theorem natDigits_digits (n : Nat) : ∀ c ∈ natDigits n, c.isDigit = true := by
  induction n using Nat.strong_induction_on with
  | _ n ih =>
    intro c hc
    rw [natDigits] at hc
    by_cases hn : n < 10
    · rw [if_pos hn] at hc
      simp only [List.mem_singleton] at hc
      rw [hc]
      exact digitChar_isDigit hn
    · rw [if_neg hn] at hc
      rcases List.mem_append.1 hc with h1 | h2
      · exact ih (n / 10) (Nat.div_lt_self (by omega) (by omega)) c h1
      · simp only [List.mem_singleton] at h2
        rw [h2]
        exact digitChar_isDigit (Nat.mod_lt _ (by omega))

theorem digitsVal_natDigits (m : Nat) : ∀ v : Int, 0 ≤ v →
    digitsVal Bool.false v (natDigits m) =
      if v * 10 ^ (natDigits m).length + (m : Int) ≤ i64Max
      then some (v * 10 ^ (natDigits m).length + (m : Int)) else none := by
  induction m using Nat.strong_induction_on with
  | _ m ih =>
    intro v hv
    by_cases hm : m < 10
    · rw [natDigits, if_pos hm]
      have hmd : digitVal (digitChar m) = some m := digitVal_digitChar hm
      simp only [digitsVal, hmd, List.length_cons, List.length_nil, pow_one,
        digitStep, Bool.false_eq_true, if_false, zero_add]
      have h0 : (0 : Int) ≤ (m : Int) := Int.natCast_nonneg m
      have hmin : ¬(v * 10 + (m : Int) < i64Min) := by
        simp only [i64Min]
        omega
      by_cases hmax : i64Max < v * 10 + (m : Int)
      · rw [if_pos (Or.inr hmax), if_neg (by omega)]
      · rw [if_neg (by tauto), if_pos (by omega)]
    · rw [natDigits, if_neg hm]
      have hdlt : m / 10 < m := Nat.div_lt_self (by omega) (by omega)
      rw [digitsVal_append, ih (m / 10) hdlt v hv]
      have hm2 : (m : Int) = 10 * ((m / 10 : Nat) : Int) + ((m % 10 : Nat) : Int) := by
        exact_mod_cast (Nat.div_add_mod m 10).symm
      have hLlen : (natDigits (m / 10) ++ [digitChar (m % 10)]).length =
          (natDigits (m / 10)).length + 1 := by simp
      rw [hLlen]
      have hpow : (10 : Int) ^ ((natDigits (m / 10)).length + 1) =
          10 ^ (natDigits (m / 10)).length * 10 := by ring
      have hP : (0 : Int) < 10 ^ (natDigits (m / 10)).length :=
        pow_pos (by norm_num) _
      have hd1 : (0 : Int) ≤ ((m / 10 : Nat) : Int) := Int.natCast_nonneg _
      have hd2 : (0 : Int) ≤ ((m % 10 : Nat) : Int) := Int.natCast_nonneg _
      have hd2lt : ((m % 10 : Nat) : Int) < 10 := by
        have := Nat.mod_lt m (show 0 < 10 by omega)
        exact_mod_cast this
      have hkey : (v * 10 ^ (natDigits (m / 10)).length + ((m / 10 : Nat) : Int)) * 10 +
          ((m % 10 : Nat) : Int) =
          v * 10 ^ ((natDigits (m / 10)).length + 1) + (m : Int) := by
        rw [hm2, hpow]; ring
      have hw0 : 0 ≤ v * 10 ^ (natDigits (m / 10)).length + ((m / 10 : Nat) : Int) := by
        have := mul_nonneg hv (le_of_lt hP)
        omega
      by_cases h1 : v * 10 ^ (natDigits (m / 10)).length + ((m / 10 : Nat) : Int) ≤ i64Max
      · rw [if_pos h1]
        simp only
        have hmodd : digitVal (digitChar (m % 10)) = some (m % 10) :=
          digitVal_digitChar (Nat.mod_lt _ (by omega))
        simp only [digitsVal, hmodd, digitStep, Bool.false_eq_true, if_false]
        have hmin : ¬((v * 10 ^ (natDigits (m / 10)).length + ((m / 10 : Nat) : Int)) * 10 +
            ((m % 10 : Nat) : Int) < i64Min) := by
          simp only [i64Min]
          omega
        by_cases hmax : i64Max < (v * 10 ^ (natDigits (m / 10)).length +
            ((m / 10 : Nat) : Int)) * 10 + ((m % 10 : Nat) : Int)
        · rw [if_pos (Or.inr hmax), if_neg (by rw [← hkey]; omega)]
        · rw [if_neg (by tauto), if_pos (by rw [← hkey]; omega)]
          rw [hkey]
      · rw [if_neg h1]
        have hbig : ¬(v * 10 ^ ((natDigits (m / 10)).length + 1) + (m : Int) ≤ i64Max) := by
          rw [← hkey]
          simp only [i64Max] at h1 ⊢
          omega
        rw [if_neg hbig]

theorem digitsVal_natDigits_some {m : Nat} (hm : (m : Int) ≤ i64Max) :
    digitsVal Bool.false 0 (natDigits m) = some (m : Int) := by
  have h := digitsVal_natDigits m 0 (le_refl 0)
  rw [zero_mul, zero_add] at h
  rw [h, if_pos hm]

theorem digitsVal_natDigits_none {m : Nat} (hm : i64Max < (m : Int)) :
    digitsVal Bool.false 0 (natDigits m) = none := by
  have h := digitsVal_natDigits m 0 (le_refl 0)
  rw [zero_mul, zero_add] at h
  rw [h, if_neg (by omega)]

theorem digit_not_ws {c : Char} (h : c.isDigit = true) : isWhitespaceChar c = false := by
  have h1 : c ≠ ' ' := fun hc => absurd h (by rw [hc]; decide)
  have h2 : c ≠ '\t' := fun hc => absurd h (by rw [hc]; decide)
  have h3 : c ≠ '\r' := fun hc => absurd h (by rw [hc]; decide)
  have h4 : c ≠ '\n' := fun hc => absurd h (by rw [hc]; decide)
  simp [isWhitespaceChar, h1, h2, h3, h4]

theorem digit_ne_minus {c : Char} (h : c.isDigit = true) : ¬c = '-' :=
  fun hc => absurd h (by rw [hc]; decide)

theorem digit_ne_plus {c : Char} (h : c.isDigit = true) : ¬c = '+' :=
  fun hc => absurd h (by rw [hc]; decide)

theorem signP_minus (s : List Char) : signP ('-' :: s) = (s, Bool.true) := by
  simp [signP]

theorem signP_plus (s : List Char) : signP ('+' :: s) = (s, Bool.false) := by
  simp [signP]

theorem signP_other {c : Char} (h1 : ¬c = '-') (h2 : ¬c = '+') (s : List Char) :
    signP (c :: s) = (c :: s, Bool.false) := by
  simp [signP, h1, h2]

theorem nomI64_minus (s : List Char) :
    nomI64 ('-' :: s) =
      (match s with
       | [] => none
       | _ :: _ => digitLoop Bool.true 0 0 s) := by
  unfold nomI64
  rw [signP_minus]

theorem nomI64_other {c : Char} (h1 : ¬c = '-') (h2 : ¬c = '+') (s : List Char) :
    nomI64 (c :: s) = digitLoop Bool.false 0 0 (c :: s) := by
  unfold nomI64
  rw [signP_other h1 h2]

/-- Acceptance of the number rule on a rendered literal: optional leading
whitespace, an optional minus, a nonempty digit string whose checked value is
v, and a remainder that does not start with a digit. -/
theorem number_render {p : List Char} (hp : ∀ c ∈ p, isWhitespaceChar c = true)
    {neg : Bool} {ds : List Char} (hne : ds ≠ [])
    (hds : ∀ c ∈ ds, c.isDigit = true) {rest : List Char}
    (hrest : ∀ c, rest.head? = some c → c.isDigit = false) {v : Int}
    (hv : digitsVal neg 0 ds = some v) :
    number (p ++ (if neg then '-' :: ds else ds) ++ rest) =
      some (multispace0 rest, Term.number v) := by
  unfold number
  rw [List.append_assoc, ms0_append_ws hp]
  cases neg with
  | true =>
    rw [if_pos rfl]
    rw [List.cons_append, ms0_cons_not (by decide), nomI64_minus]
    cases ds with
    | nil => exact absurd rfl hne
    | cons d0 ds0 =>
      rw [show d0 :: ds0 ++ rest = (d0 :: ds0) ++ rest from rfl]
      rw [digitLoop_digits hne hds hrest Bool.true 0, hv]
      rfl
  | false =>
    rw [if_neg (by decide)]
    cases ds with
    | nil => exact absurd rfl hne
    | cons d0 ds0 =>
      have hd0 : d0.isDigit = true := hds d0 (by simp)
      rw [List.cons_append, ms0_cons_not (digit_not_ws hd0)]
      rw [nomI64_other (digit_ne_minus hd0) (digit_ne_plus hd0)]
      rw [show d0 :: (ds0 ++ rest) = (d0 :: ds0) ++ rest from rfl]
      rw [digitLoop_digits hne hds hrest Bool.false 0, hv]

end DigitSemantics

section Surface

mutual

/-- Surface syntax at the atom level, with explicit whitespace pads stored in
front of every token. -/
inductive SFactor where
  | strue (p : List Char) : SFactor
  | sfalse (p : List Char) : SFactor
  | snum (p : List Char) (neg : Bool) (ds : List Char) : SFactor
  | sparen (p1 : List Char) (e : SExpr) (p2 : List Char) : SFactor

/-- Surface syntax at the addition level: a chain of plus-joined factors. -/
inductive STerm where
  | single (f : SFactor) : STerm
  | splus (f : SFactor) (p : List Char) (r : STerm) : STerm

/-- Surface syntax at the condition level: a term or a ternary. -/
inductive SExpr where
  | base (t : STerm) : SExpr
  | stern (c : STerm) (p1 : List Char) (q : SExpr) (p2 : List Char) (a : SExpr) : SExpr

end

mutual

/-- Text of a surface factor; each token is preceded by its pad. -/
def renderF : SFactor → List Char
  | .strue p => p ++ trueTag
  | .sfalse p => p ++ falseTag
  | .snum p neg ds => p ++ (if neg then '-' :: ds else ds)
  | .sparen p1 e p2 => p1 ++ '(' :: (renderE e ++ (p2 ++ [')']))

/-- Text of a surface term. -/
def renderT : STerm → List Char
  | .single f => renderF f
  | .splus f p r => renderF f ++ (p ++ '+' :: renderT r)

/-- Text of a surface expression. -/
def renderE : SExpr → List Char
  | .base t => renderT t
  | .stern c p1 q p2 a =>
    renderT c ++ (p1 ++ '?' :: (renderE q ++ (p2 ++ ':' :: renderE a)))

end

mutual

/-- AST denoted by a surface factor, when its literal is in 64-bit range. -/
def denoteF : SFactor → Option Term
  | .strue _ => some Term.true
  | .sfalse _ => some Term.false
  | .snum _ neg ds =>
    match digitsVal neg 0 ds with
    | none => none
    | some v => some (Term.number v)
  | .sparen _ e _ => denoteE e

/-- AST denoted by a surface term: additions nest to the right. -/
def denoteT : STerm → Option Term
  | .single f => denoteF f
  | .splus f _ r =>
    match denoteF f, denoteT r with
    | some a, some b => some (Term.addition a b)
    | _, _ => none

/-- AST denoted by a surface expression. -/
def denoteE : SExpr → Option Term
  | .base t => denoteT t
  | .stern c _ q _ a =>
    match denoteT c, denoteE q, denoteE a with
    | some x, some y, some z => some (Term.condition x y z)
    | _, _, _ => none

end

/-- A pad is made of whitespace characters only. -/
def wsOnlyB (l : List Char) : Bool := l.all isWhitespaceChar

mutual

/-- Wellformedness of a surface factor: pads are whitespace, digit strings are
nonempty digits, and numeric literals fit in 64 bits. -/
def goodF : SFactor → Bool
  | .strue p => wsOnlyB p
  | .sfalse p => wsOnlyB p
  | .snum p neg ds =>
    wsOnlyB p && !ds.isEmpty && ds.all Char.isDigit && (digitsVal neg 0 ds).isSome
  | .sparen p1 e p2 => wsOnlyB p1 && wsOnlyB p2 && goodE e

/-- Wellformedness of a surface term. -/
def goodT : STerm → Bool
  | .single f => goodF f
  | .splus f p r => goodF f && wsOnlyB p && goodT r

/-- Wellformedness of a surface expression. -/
def goodE : SExpr → Bool
  | .base t => goodT t
  | .stern c p1 q p2 a => goodT c && wsOnlyB p1 && goodE q && wsOnlyB p2 && goodE a

end

theorem wsOnlyB_forall {l : List Char} (h : wsOnlyB l = true) :
    ∀ c ∈ l, isWhitespaceChar c = true := by
  intro c hc
  exact List.all_eq_true.1 h c hc

theorem ws_not_digit {c : Char} (h : isWhitespaceChar c = true) : c.isDigit = false := by
  cases h2 : c.isDigit with
  | false => rfl
  | true =>
    have := digit_not_ws h2
    rw [this] at h
    exact absurd h (by simp)

/-- The remainder does not start with a digit character. -/
def NoDigitHead (rest : List Char) : Prop :=
  ∀ c, rest.head? = some c → c.isDigit = false

/-- After whitespace stripping, the remainder does not start with x. -/
def HeadNe (x : Char) (rest : List Char) : Prop :=
  (multispace0 rest).head? ≠ some x

theorem noDigitHead_nil : NoDigitHead [] := by
  intro c hc
  simp at hc

theorem headNe_nil (x : Char) : HeadNe x [] := by
  intro h
  simp [multispace0] at h

theorem noDigitHead_pad {w : List Char} (hw : ∀ c ∈ w, isWhitespaceChar c = true)
    {tok : Char} (htok : tok.isDigit = false) (X : List Char) :
    NoDigitHead (w ++ tok :: X) := by
  intro c hc
  cases w with
  | nil =>
    simp at hc
    rw [← hc]
    exact htok
  | cons a as =>
    simp at hc
    rw [← hc]
    exact ws_not_digit (hw a (by simp))

theorem ms0_pad_tok {w : List Char} (hw : ∀ c ∈ w, isWhitespaceChar c = true)
    {tok : Char} (htok : isWhitespaceChar tok = false) (X : List Char) :
    multispace0 (w ++ tok :: X) = tok :: X := by
  rw [ms0_append_ws hw, ms0_cons_not htok]

theorem headNe_pad {w : List Char} (hw : ∀ c ∈ w, isWhitespaceChar c = true)
    {tok : Char} (htok : isWhitespaceChar tok = false) (X : List Char)
    {x : Char} (hx : ¬tok = x) : HeadNe x (w ++ tok :: X) := by
  intro h
  rw [ms0_pad_tok hw htok] at h
  simp at h
  exact hx h

theorem wsChar_pad_tok {w : List Char} (hw : ∀ c ∈ w, isWhitespaceChar c = true)
    {c : Char} (hc : isWhitespaceChar c = false) (X : List Char) :
    wsChar c (w ++ c :: X) = some (multispace0 X) := by
  unfold wsChar
  rw [ms0_pad_tok hw hc, charP_cons_self]

theorem wsChar_tok {c : Char} (hc : isWhitespaceChar c = false) (X : List Char) :
    wsChar c (c :: X) = some (multispace0 X) := by
  unfold wsChar
  rw [ms0_cons_not hc, charP_cons_self]

theorem wsChar_head_ne {c : Char} {s : List Char} (h : HeadNe c s) :
    wsChar c s = none := by
  unfold wsChar
  cases hm : multispace0 s with
  | nil => rfl
  | cons x xs =>
    have hx : ¬x = c := by
      intro he
      apply h
      rw [hm, he]
      rfl
    rw [charP_cons_ne hx]

theorem many0Plus_nil_pairs {n : Nat} {s : List Char} (hn : 1 ≤ n)
    (h : wsChar '+' s = none) : many0Plus n s = some (s, []) := by
  cases n with
  | zero => omega
  | succ n =>
    rw [many0Plus_succ, h]

theorem nomI64_nil : nomI64 [] = none := rfl

theorem number_none_of_nil {s : List Char} (h : multispace0 s = []) :
    number s = none := by
  unfold number
  rw [h]
  rfl

theorem number_none_of_head {s cs : List Char} {c : Char}
    (h : multispace0 s = c :: cs) (h1 : ¬c = '-') (h2 : ¬c = '+')
    (h3 : c.isDigit = false) : number s = none := by
  unfold number
  rw [h, nomI64_other h1 h2]
  simp [digitLoop, digitVal, h3]

theorem boolean_none_of_nil {s : List Char} (h : multispace0 s = []) :
    boolean s = none := by
  unfold boolean
  rw [h]
  rfl

theorem boolean_none_of_head {s cs : List Char} {c : Char}
    (h : multispace0 s = c :: cs) (h1 : ¬c = 't') (h2 : ¬c = 'f') :
    boolean s = none := by
  unfold boolean
  rw [h]
  have ht : tagP trueTag (c :: cs) = none := tagP_ne_head h1 _ _
  have hf : tagP falseTag (c :: cs) = none := tagP_ne_head h2 _ _
  rw [ht, hf]

theorem boolean_render_true {p : List Char}
    (hp : ∀ c ∈ p, isWhitespaceChar c = true) (rest : List Char) :
    boolean ((p ++ trueTag) ++ rest) = some (multispace0 rest, Term.true) := by
  unfold boolean
  rw [List.append_assoc, ms0_append_ws hp]
  have hms : multispace0 (trueTag ++ rest) = trueTag ++ rest :=
    ms0_cons_not (by decide) _
  rw [hms, tagP_append]

theorem boolean_render_false {p : List Char}
    (hp : ∀ c ∈ p, isWhitespaceChar c = true) (rest : List Char) :
    boolean ((p ++ falseTag) ++ rest) = some (multispace0 rest, Term.false) := by
  unfold boolean
  rw [List.append_assoc, ms0_append_ws hp]
  have hms : multispace0 (falseTag ++ rest) = falseTag ++ rest :=
    ms0_cons_not (by decide) _
  rw [hms]
  have ht : tagP trueTag (falseTag ++ rest) = none := tagP_ne_head (by decide) _ _
  rw [ht, tagP_append]

theorem renderF_pos (f : SFactor) (hg : goodF f = true) : 1 ≤ (renderF f).length := by
  cases f with
  | strue p => simp [renderF, trueTag]
  | sfalse p => simp [renderF, falseTag]
  | snum p neg ds =>
    simp only [goodF, Bool.and_eq_true, Bool.not_eq_true'] at hg
    have hne : ds ≠ [] := by
      intro hnil
      rw [hnil] at hg
      simp at hg
    cases neg with
    | true => simp [renderF]; omega
    | false =>
      simp only [renderF, Bool.false_eq_true, if_false, List.length_append]
      cases ds with
      | nil => exact absurd rfl hne
      | cons d dsx => simp; omega
  | sparen p1 e p2 => simp [renderF]; omega

theorem renderT_pos (t : STerm) (hg : goodT t = true) : 1 ≤ (renderT t).length := by
  cases t with
  | single f =>
    simp only [goodT] at hg
    simpa [renderT] using renderF_pos f hg
  | splus f p r => simp [renderT]; omega

theorem renderE_pos (e : SExpr) (hg : goodE e = true) : 1 ≤ (renderE e).length := by
  cases e with
  | base t =>
    simp only [goodE] at hg
    simpa [renderE] using renderT_pos t hg
  | stern c p1 q p2 a => simp [renderE]; omega

end Surface

section Soundness

theorem headNe_ms0 {x : Char} {rest : List Char} (h : HeadNe x rest) :
    HeadNe x (multispace0 rest) := by
  intro hh
  rw [ms0_idem] at hh
  exact h hh

mutual

/-- The factor rule accepts the render of a wellformed surface factor and
returns its denotation, leaving the whitespace-stripped remainder. -/
theorem soundF : ∀ (f : SFactor) (rest : List Char) (n : Nat) (t : Term),
    goodF f = true → denoteF f = some t → NoDigitHead rest →
    3 * (renderF f ++ rest).length + 1 ≤ n →
    factor n (renderF f ++ rest) = some (multispace0 rest, t) := by
  intro f rest n t hg hd hrest hn
  cases f with
  | strue p =>
    simp only [goodF] at hg
    have hp := wsOnlyB_forall hg
    simp only [denoteF, Option.some.injEq] at hd
    subst hd
    simp only [renderF] at hn ⊢
    cases n with
    | zero => omega
    | succ n =>
      rw [factor_succ]
      have hms : multispace0 ((p ++ trueTag) ++ rest) = trueTag ++ rest := by
        rw [List.append_assoc, ms0_append_ws hp]
        exact ms0_cons_not (by decide) _
      have hnum : number ((p ++ trueTag) ++ rest) = none :=
        number_none_of_head hms (by decide) (by decide) (by decide)
      have hbool := boolean_render_true hp rest
      simp only [hnum, hbool]
  | sfalse p =>
    simp only [goodF] at hg
    have hp := wsOnlyB_forall hg
    simp only [denoteF, Option.some.injEq] at hd
    subst hd
    simp only [renderF] at hn ⊢
    cases n with
    | zero => omega
    | succ n =>
      rw [factor_succ]
      have hms : multispace0 ((p ++ falseTag) ++ rest) = falseTag ++ rest := by
        rw [List.append_assoc, ms0_append_ws hp]
        exact ms0_cons_not (by decide) _
      have hnum : number ((p ++ falseTag) ++ rest) = none :=
        number_none_of_head hms (by decide) (by decide) (by decide)
      have hbool := boolean_render_false hp rest
      simp only [hnum, hbool]
  | snum p neg ds =>
    simp only [goodF, Bool.and_eq_true] at hg
    obtain ⟨⟨⟨hp0, hne0⟩, hdig0⟩, hsome⟩ := hg
    have hp := wsOnlyB_forall hp0
    have hne : ds ≠ [] := by
      intro h
      rw [h] at hne0
      simp at hne0
    have hdig : ∀ c ∈ ds, c.isDigit = true := fun c hc => List.all_eq_true.1 hdig0 c hc
    simp only [denoteF] at hd
    cases hdv : digitsVal neg 0 ds with
    | none =>
      rw [hdv] at hd
      exact absurd hd (by simp)
    | some v =>
      rw [hdv] at hd
      simp only [Option.some.injEq] at hd
      subst hd
      simp only [renderF] at hn ⊢
      cases n with
      | zero => omega
      | succ n =>
        rw [factor_succ]
        have hnum := number_render hp hne hdig hrest hdv
        simp only [hnum]
  | sparen p1 e p2 =>
    simp only [goodF, Bool.and_eq_true] at hg
    obtain ⟨⟨hp10, hp20⟩, hge⟩ := hg
    have hp1 := wsOnlyB_forall hp10
    have hp2 := wsOnlyB_forall hp20
    simp only [denoteF] at hd
    simp only [renderF] at hn ⊢
    have hshape : (p1 ++ '(' :: (renderE e ++ (p2 ++ [')']))) ++ rest =
        p1 ++ '(' :: (renderE e ++ (p2 ++ ')' :: rest)) := by
      simp [List.append_assoc]
    rw [hshape] at hn ⊢
    cases n with
    | zero => omega
    | succ n =>
      rw [factor_succ]
      have hms : multispace0 (p1 ++ '(' :: (renderE e ++ (p2 ++ ')' :: rest))) =
          '(' :: (renderE e ++ (p2 ++ ')' :: rest)) :=
        ms0_pad_tok hp1 (by decide) _
      have hnum : number (p1 ++ '(' :: (renderE e ++ (p2 ++ ')' :: rest))) = none :=
        number_none_of_head hms (by decide) (by decide) (by decide)
      have hbool : boolean (p1 ++ '(' :: (renderE e ++ (p2 ++ ')' :: rest))) = none :=
        boolean_none_of_head hms (by decide) (by decide)
      have hlp : wsChar '(' (p1 ++ '(' :: (renderE e ++ (p2 ++ ')' :: rest))) =
          some (multispace0 (renderE e ++ (p2 ++ ')' :: rest))) :=
        wsChar_pad_tok hp1 (by decide) _
      have hms0expr : expr n (multispace0 (renderE e ++ (p2 ++ ')' :: rest))) =
          expr n (renderE e ++ (p2 ++ ')' :: rest)) := expr_ms0 n _
      have hbound : 3 * (renderE e ++ (p2 ++ ')' :: rest)).length + 3 ≤ n := by
        simp only [List.length_append, List.length_cons] at hn ⊢
        omega
      have hrec := soundE e (p2 ++ ')' :: rest) n t hge hd
        (noDigitHead_pad hp2 (by decide) rest)
        (headNe_pad hp2 (by decide) rest (by decide))
        (headNe_pad hp2 (by decide) rest (by decide))
        hbound
      have hms2 : multispace0 (p2 ++ ')' :: rest) = ')' :: rest :=
        ms0_pad_tok hp2 (by decide) _
      have hrp : wsChar ')' (')' :: rest) = some (multispace0 rest) :=
        wsChar_tok (by decide) rest
      simp only [hnum, hbool, hlp, hms0expr, hrec, hms2, hrp]

/-- The term rule accepts the render of a wellformed surface term and returns
its right-nested denotation, leaving the whitespace-stripped remainder. -/
theorem soundT : ∀ (tm : STerm) (rest : List Char) (n : Nat) (t : Term),
    goodT tm = true → denoteT tm = some t → NoDigitHead rest → HeadNe '+' rest →
    3 * (renderT tm ++ rest).length + 2 ≤ n →
    term n (renderT tm ++ rest) = some (multispace0 rest, t) := by
  intro tm rest n t hg hd hrest hplus hn
  cases tm with
  | single f =>
    simp only [goodT] at hg
    simp only [denoteT] at hd
    simp only [renderT] at hn ⊢
    cases n with
    | zero => omega
    | succ n =>
      rw [term_succ]
      have h1 := soundF f rest n t hg hd hrest (by omega)
      have hw : wsChar '+' (multispace0 rest) = none :=
        wsChar_head_ne (headNe_ms0 hplus)
      have hm := many0Plus_nil_pairs (n := n) (by omega) hw
      simp only [h1, hm, List.foldl_nil]
  | splus f p r =>
    simp only [goodT, Bool.and_eq_true] at hg
    obtain ⟨⟨hgf, hp0⟩, hgr⟩ := hg
    have hp := wsOnlyB_forall hp0
    simp only [denoteT] at hd
    cases hdf : denoteF f with
    | none =>
      rw [hdf] at hd
      exact absurd hd (by simp)
    | some tf =>
      cases hdr : denoteT r with
      | none =>
        rw [hdf, hdr] at hd
        exact absurd hd (by simp)
      | some tr =>
        rw [hdf, hdr] at hd
        simp only [Option.some.injEq] at hd
        subst hd
        simp only [renderT] at hn ⊢
        have hshape : (renderF f ++ (p ++ '+' :: renderT r)) ++ rest =
            renderF f ++ (p ++ '+' :: (renderT r ++ rest)) := by
          simp [List.append_assoc]
        rw [hshape] at hn ⊢
        have hfpos : 1 ≤ (renderF f).length := renderF_pos f hgf
        cases n with
        | zero => omega
        | succ n =>
          rw [term_succ]
          have h1 := soundF f (p ++ '+' :: (renderT r ++ rest)) n tf hgf hdf
            (noDigitHead_pad hp (by decide) _) (by
              simp only [List.length_append, List.length_cons] at hn ⊢
              omega)
          have hms1 : multispace0 (p ++ '+' :: (renderT r ++ rest)) =
              '+' :: (renderT r ++ rest) := ms0_pad_tok hp (by decide) _
          cases n with
          | zero =>
            simp only [List.length_append, List.length_cons] at hn
            omega
          | succ n2 =>
            have hwplus : wsChar '+' (multispace0 (p ++ '+' :: (renderT r ++ rest))) =
                some (multispace0 (renderT r ++ rest)) := by
              rw [hms1]
              exact wsChar_tok (by decide) _
            have hterm2 : term n2 (multispace0 (renderT r ++ rest)) =
                some (multispace0 rest, tr) := by
              rw [term_ms0]
              exact soundT r rest n2 tr hgr hdr hrest hplus (by
                simp only [List.length_append, List.length_cons] at hn ⊢
                omega)
            have hne2 : ¬multispace0 rest = multispace0 (p ++ '+' :: (renderT r ++ rest)) := by
              intro heq
              have hlen := congrArg List.length heq
              rw [hms1] at hlen
              have h3 := ms0_length rest
              simp only [List.length_cons, List.length_append] at hlen
              omega
            have hm0 : many0Plus n2 (multispace0 rest) = some (multispace0 rest, []) :=
              many0Plus_nil_pairs (by
                simp only [List.length_append, List.length_cons] at hn
                omega) (wsChar_head_ne (headNe_ms0 hplus))
            have hm : many0Plus (n2 + 1) (multispace0 (p ++ '+' :: (renderT r ++ rest))) =
                some (multispace0 rest, [tr]) := by
              rw [many0Plus_succ]
              simp only [hwplus, hterm2, if_neg hne2, hm0]
            simp only [h1, hm, List.foldl_cons, List.foldl_nil]

/-- The expr rule accepts the render of a wellformed surface expression and
returns its denotation, leaving the whitespace-stripped remainder. -/
theorem soundE : ∀ (e : SExpr) (rest : List Char) (n : Nat) (t : Term),
    goodE e = true → denoteE e = some t → NoDigitHead rest → HeadNe '+' rest →
    HeadNe '?' rest →
    3 * (renderE e ++ rest).length + 3 ≤ n →
    expr n (renderE e ++ rest) = some (multispace0 rest, t) := by
  intro e rest n t hg hd hrest hplus hquest hn
  cases e with
  | base tm =>
    simp only [goodE] at hg
    simp only [denoteE] at hd
    simp only [renderE] at hn ⊢
    cases n with
    | zero => omega
    | succ n =>
      rw [expr_succ]
      have h1 := soundT tm rest n t hg hd hrest hplus (by omega)
      have hw : wsChar '?' (multispace0 rest) = none :=
        wsChar_head_ne (headNe_ms0 hquest)
      simp only [h1, hw]
  | stern c p1 q p2 a =>
    simp only [goodE, Bool.and_eq_true] at hg
    obtain ⟨⟨⟨⟨hgc, hp10⟩, hgq⟩, hp20⟩, hga⟩ := hg
    have hp1 := wsOnlyB_forall hp10
    have hp2 := wsOnlyB_forall hp20
    simp only [denoteE] at hd
    cases hdc : denoteT c with
    | none =>
      rw [hdc] at hd
      exact absurd hd (by simp)
    | some tc =>
      cases hdq : denoteE q with
      | none =>
        rw [hdc, hdq] at hd
        exact absurd hd (by simp)
      | some tq =>
        cases hda : denoteE a with
        | none =>
          rw [hdc, hdq, hda] at hd
          exact absurd hd (by simp)
        | some ta =>
          rw [hdc, hdq, hda] at hd
          simp only [Option.some.injEq] at hd
          subst hd
          simp only [renderE] at hn ⊢
          have hshape :
              (renderT c ++ (p1 ++ '?' :: (renderE q ++ (p2 ++ ':' :: renderE a)))) ++ rest =
              renderT c ++ (p1 ++ '?' ::
                (renderE q ++ (p2 ++ ':' :: (renderE a ++ rest)))) := by
            simp [List.append_assoc]
          rw [hshape] at hn ⊢
          have hcpos : 1 ≤ (renderT c).length := renderT_pos c hgc
          have hqpos : 1 ≤ (renderE q).length := renderE_pos q hgq
          cases n with
          | zero => omega
          | succ n =>
            rw [expr_succ]
            have h1 := soundT c
              (p1 ++ '?' :: (renderE q ++ (p2 ++ ':' :: (renderE a ++ rest)))) n tc hgc hdc
              (noDigitHead_pad hp1 (by decide) _)
              (headNe_pad hp1 (by decide) _ (by decide))
              (by
                simp only [List.length_append, List.length_cons] at hn ⊢
                omega)
            have hms1 : multispace0
                (p1 ++ '?' :: (renderE q ++ (p2 ++ ':' :: (renderE a ++ rest)))) =
                '?' :: (renderE q ++ (p2 ++ ':' :: (renderE a ++ rest))) :=
              ms0_pad_tok hp1 (by decide) _
            have hq : wsChar '?' (multispace0
                (p1 ++ '?' :: (renderE q ++ (p2 ++ ':' :: (renderE a ++ rest))))) =
                some (multispace0 (renderE q ++ (p2 ++ ':' :: (renderE a ++ rest)))) := by
              rw [hms1]
              exact wsChar_tok (by decide) _
            have h3 : expr n (multispace0
                (renderE q ++ (p2 ++ ':' :: (renderE a ++ rest)))) =
                some (multispace0 (p2 ++ ':' :: (renderE a ++ rest)), tq) := by
              rw [expr_ms0]
              exact soundE q (p2 ++ ':' :: (renderE a ++ rest)) n tq hgq hdq
                (noDigitHead_pad hp2 (by decide) _)
                (headNe_pad hp2 (by decide) _ (by decide))
                (headNe_pad hp2 (by decide) _ (by decide))
                (by
                  simp only [List.length_append, List.length_cons] at hn ⊢
                  omega)
            have hms2 : multispace0 (p2 ++ ':' :: (renderE a ++ rest)) =
                ':' :: (renderE a ++ rest) := ms0_pad_tok hp2 (by decide) _
            have h4 : wsChar ':' (multispace0 (p2 ++ ':' :: (renderE a ++ rest))) =
                some (multispace0 (renderE a ++ rest)) := by
              rw [hms2]
              exact wsChar_tok (by decide) _
            have h5 : expr n (multispace0 (renderE a ++ rest)) =
                some (multispace0 rest, ta) := by
              rw [expr_ms0]
              exact soundE a rest n ta hga hda hrest hplus hquest (by
                simp only [List.length_append, List.length_cons] at hn ⊢
                omega)
            simp only [h1, hq, h3, h4, h5]

end

end Soundness

section Bridges

/-- Parsing the render of a wellformed surface expression yields its
denotation. -/
theorem parse_render (e : SExpr) (t : Term) (hg : goodE e = true)
    (hd : denoteE e = some t) :
    parse (String.mk (renderE e)) = Except.ok t := by
  unfold parse
  have h := soundE e [] (3 * (renderE e).length + 3) t hg hd noDigitHead_nil
    (headNe_nil _) (headNe_nil _) (by simp)
  rw [List.append_nil] at h
  have hdata : (String.mk (renderE e)).data = renderE e := rfl
  have hlen : (String.mk (renderE e)).length = (renderE e).length := rfl
  rw [hdata, hlen, h]
  rfl

mutual

/-- Forget all whitespace pads of a surface factor. -/
def eraseF : SFactor → SFactor
  | .strue _ => .strue []
  | .sfalse _ => .sfalse []
  | .snum _ neg ds => .snum [] neg ds
  | .sparen _ e _ => .sparen [] (eraseE e) []

/-- Forget all whitespace pads of a surface term. -/
def eraseT : STerm → STerm
  | .single f => .single (eraseF f)
  | .splus f _ r => .splus (eraseF f) [] (eraseT r)

/-- Forget all whitespace pads of a surface expression. -/
def eraseE : SExpr → SExpr
  | .base t => .base (eraseT t)
  | .stern c _ q _ a => .stern (eraseT c) [] (eraseE q) [] (eraseE a)

end

mutual

theorem denoteF_erase : ∀ f : SFactor, denoteF (eraseF f) = denoteF f
  | .strue _ => rfl
  | .sfalse _ => rfl
  | .snum _ _ _ => rfl
  | .sparen _ e _ => by
    simp only [eraseF, denoteF]
    exact denoteE_erase e

theorem denoteT_erase : ∀ t : STerm, denoteT (eraseT t) = denoteT t
  | .single f => by
    simp only [eraseT, denoteT]
    exact denoteF_erase f
  | .splus f _ r => by
    simp only [eraseT, denoteT]
    rw [denoteF_erase f, denoteT_erase r]

theorem denoteE_erase : ∀ e : SExpr, denoteE (eraseE e) = denoteE e
  | .base t => by
    simp only [eraseE, denoteE]
    exact denoteT_erase t
  | .stern c _ q _ a => by
    simp only [eraseE, denoteE]
    rw [denoteT_erase c, denoteE_erase q, denoteE_erase a]

end

mutual

theorem denoteF_isSome : ∀ f : SFactor, goodF f = true → (denoteF f).isSome = true
  | .strue _, _ => rfl
  | .sfalse _, _ => rfl
  | .snum p neg ds, hg => by
    simp only [goodF, Bool.and_eq_true] at hg
    simp only [denoteF]
    cases hdv : digitsVal neg 0 ds with
    | none =>
      rw [hdv] at hg
      simp at hg
    | some v => rfl
  | .sparen _ e _, hg => by
    simp only [goodF, Bool.and_eq_true] at hg
    simp only [denoteF]
    exact denoteE_isSome e hg.2

theorem denoteT_isSome : ∀ t : STerm, goodT t = true → (denoteT t).isSome = true
  | .single f, hg => by
    simp only [goodT] at hg
    simp only [denoteT]
    exact denoteF_isSome f hg
  | .splus f _ r, hg => by
    simp only [goodT, Bool.and_eq_true] at hg
    simp only [denoteT]
    have h1 := denoteF_isSome f hg.1.1
    have h2 := denoteT_isSome r hg.2
    cases hdf : denoteF f with
    | none => rw [hdf] at h1; simp at h1
    | some a =>
      cases hdr : denoteT r with
      | none => rw [hdr] at h2; simp at h2
      | some b => rfl

theorem denoteE_isSome : ∀ e : SExpr, goodE e = true → (denoteE e).isSome = true
  | .base t, hg => by
    simp only [goodE] at hg
    simp only [denoteE]
    exact denoteT_isSome t hg
  | .stern c _ q _ a, hg => by
    simp only [goodE, Bool.and_eq_true] at hg
    simp only [denoteE]
    have h1 := denoteT_isSome c hg.1.1.1.1
    have h2 := denoteE_isSome q hg.1.1.2
    have h3 := denoteE_isSome a hg.2
    cases hdc : denoteT c with
    | none => rw [hdc] at h1; simp at h1
    | some x =>
      cases hdq : denoteE q with
      | none => rw [hdq] at h2; simp at h2
      | some y =>
        cases hda : denoteE a with
        | none => rw [hda] at h3; simp at h3
        | some z => rfl

end

/-- Right-nested addition chain, as the spec describes it. -/
def rightNest : Term → List Term → Term
  | t, [] => t
  | t, u :: us => Term.addition t (rightNest u us)

/-- A chain of plus-joined factors, nested to the right like the term rule,
with a single space in front of every plus sign. -/
def chainT : SFactor → List SFactor → STerm
  | f, [] => .single f
  | f, g :: gs => .splus f [' '] (chainT g gs)

theorem chainT_good (f : SFactor) (gs : List SFactor) (hf : goodF f = true)
    (hgs : ∀ g ∈ gs, goodF g = true) : goodT (chainT f gs) = true := by
  induction gs generalizing f with
  | nil => simpa [chainT, goodT] using hf
  | cons g gs ih =>
    simp only [chainT, goodT, Bool.and_eq_true]
    refine ⟨⟨hf, by decide⟩, ?_⟩
    exact ih g (hgs g (by simp)) (fun x hx => hgs x (by simp [hx]))

theorem chainT_denote (f : SFactor) (gs : List SFactor) (t : Term) (ts : List Term)
    (hf : denoteF f = some t)
    (hgs : List.Forall₂ (fun g w => denoteF g = some w) gs ts) :
    denoteT (chainT f gs) = some (rightNest t ts) := by
  induction hgs generalizing f t with
  | nil => simpa [chainT, denoteT, rightNest] using hf
  | cons hgw hrest ih =>
    rename_i g w gs2 ts2
    simp only [chainT, denoteT]
    rw [hf, ih g w hgw]
    rfl

end Bridges

section ManyPost

theorem many0Plus_nil_inv {m : Nat} {x r : List Char}
    (h : many0Plus m x = some (r, [])) : r = x := by
  cases m with
  | zero => simp [many0Plus_zero] at h
  | succ m =>
    rw [many0Plus_succ] at h
    split at h
    · simp only [Option.some.injEq, Prod.mk.injEq] at h
      exact h.1.symm
    · rename_i s0 hP
      split at h
      · simp only [Option.some.injEq, Prod.mk.injEq] at h
        exact h.1.symm
      · rename_i s1 t hT
        split at h
        · exact absurd h (by simp)
        · split at h
          · exact absurd h (by simp)
          · rename_i s2 ts2 hM
            simp only [Option.some.injEq, Prod.mk.injEq] at h
            exact absurd h.2 (by simp)

theorem many0Plus_post : ∀ (n : Nat) (s r : List Char) (ps : List Term),
    3 * s.length + 3 ≤ n → many0Plus n s = some (r, ps) →
    ∀ m, 3 * r.length + 2 ≤ m → plusTerm m r = none := by
  intro n
  induction n with
  | zero => intro s r ps hb h; omega
  | succ n ih =>
    intro s r ps hb h m hm
    rw [many0Plus_succ] at h
    cases hP : wsChar '+' s with
    | none =>
      simp only [hP, Option.some.injEq, Prod.mk.injEq] at h
      unfold plusTerm
      rw [← h.1, hP]
    | some s0 =>
      simp only [hP] at h
      cases hT : term n s0 with
      | none =>
        simp only [hT, Option.some.injEq, Prod.mk.injEq] at h
        have hs0 : s0.length < s.length := wsChar_length hP
        have hrs : r.length = s.length := by rw [← h.1]
        have hst : term m s0 = term (3 * s0.length + 2) s0 :=
          term_stable s0 _ m (le_refl _) (by omega)
        have hst2 : term n s0 = term (3 * s0.length + 2) s0 :=
          term_stable s0 _ n (le_refl _) (by omega)
        unfold plusTerm
        rw [← h.1, hP]
        show term m s0 = none
        rw [hst, ← hst2, hT]
      | some p =>
        obtain ⟨s1, t⟩ := p
        simp only [hT] at h
        split at h
        · exact absurd h (by simp)
        · cases hM : many0Plus n s1 with
          | none =>
            simp only [hM] at h
            exact Option.noConfusion h
          | some q =>
            obtain ⟨r2, ps2⟩ := q
            simp only [hM, Option.some.injEq, Prod.mk.injEq] at h
            have hs0 : s0.length < s.length := wsChar_length hP
            have hs1 : s1.length < s0.length := term_length hT
            have hr2 : r = r2 := h.1.symm
            rw [hr2]
            exact ih s1 r2 ps2 (by omega) hM m (by rw [hr2] at hm; omega)

theorem term_post {n : Nat} {s r : List Char} {t : Term}
    (hb : 3 * s.length + 2 ≤ n) (h : term n s = some (r, t)) :
    ∀ m, 3 * r.length + 2 ≤ m → plusTerm m r = none := by
  cases n with
  | zero => omega
  | succ n =>
    rw [term_succ] at h
    cases hF : factor n s with
    | none =>
      simp only [hF] at h
      exact Option.noConfusion h
    | some p =>
      obtain ⟨s1, tf⟩ := p
      simp only [hF] at h
      cases hM : many0Plus n s1 with
      | none =>
        simp only [hM] at h
        exact Option.noConfusion h
      | some q =>
        obtain ⟨s2, ts⟩ := q
        simp only [hM, Option.some.injEq, Prod.mk.injEq] at h
        have hs1 : s1.length < s.length := factor_length hF
        intro m hm
        rw [← h.1]
        exact many0Plus_post n s1 s2 ts (by omega) hM m (by rw [← h.1] at hm; omega)

end ManyPost

section NumberInversion

theorem digitVal_some_isDigit {c : Char} {d : Nat} (h : digitVal c = some d) :
    c.isDigit = true := by
  cases hc : c.isDigit with
  | true => rfl
  | false => simp [digitVal, hc] at h

theorem digitLoop_inv : ∀ {l : List Char} {neg : Bool} {v : Int} {p : Nat}
    {r : List Char} {w : Int},
    digitLoop neg v p l = some (r, w) → i64Min ≤ v → v ≤ i64Max →
    ∃ ds, l = ds ++ r ∧ (∀ c ∈ ds, c.isDigit = true) ∧
      (p = 0 → l ≠ [] → ds ≠ []) ∧ i64Min ≤ w ∧ w ≤ i64Max := by
  intro l
  induction l with
  | nil =>
    intro neg v p r w h h1 h2
    simp only [digitLoop, Option.some.injEq, Prod.mk.injEq] at h
    refine ⟨[], by rw [← h.1]; rfl, fun c hc => absurd hc (by simp),
      fun _ hl => absurd rfl hl, ?_, ?_⟩
    · rw [← h.2]; exact h1
    · rw [← h.2]; exact h2
  | cons c cs ih =>
    intro neg v p r w h h1 h2
    simp only [digitLoop] at h
    cases hd : digitVal c with
    | none =>
      simp only [hd] at h
      by_cases hp : p = 0
      · simp [hp] at h
      · rw [if_neg hp] at h
        simp only [Option.some.injEq, Prod.mk.injEq] at h
        refine ⟨[], by rw [← h.1]; rfl, fun x hx => absurd hx (by simp),
          fun hp0 _ => absurd hp0 hp, ?_, ?_⟩
        · rw [← h.2]; exact h1
        · rw [← h.2]; exact h2
    | some d =>
      simp only [hd] at h
      by_cases hv : digitStep neg v d < i64Min ∨ i64Max < digitStep neg v d
      · rw [if_pos hv] at h
        exact Option.noConfusion h
      · rw [if_neg hv] at h
        push_neg at hv
        obtain ⟨ds, hds1, hds2, _, hb1, hb2⟩ := ih h (by omega) (by omega)
        refine ⟨c :: ds, by rw [List.cons_append, hds1], ?_, ?_, hb1, hb2⟩
        · intro x hx
          rcases List.mem_cons.1 hx with hxc | hxds
          · rw [hxc]
            exact digitVal_some_isDigit hd
          · exact hds2 x hxds
        · intro _ _
          simp

theorem nomI64_plus (s : List Char) :
    nomI64 ('+' :: s) =
      (match s with
       | [] => none
       | _ :: _ => digitLoop Bool.false 0 0 s) := by
  unfold nomI64
  rw [signP_plus]

theorem nomI64_inv {x r : List Char} {v : Int} (h : nomI64 x = some (r, v)) :
    ∃ sgn ds, x = sgn ++ (ds ++ r) ∧ (sgn = [] ∨ sgn = ['-'] ∨ sgn = ['+']) ∧
      ds ≠ [] ∧ (∀ c ∈ ds, c.isDigit = true) ∧ i64Min ≤ v ∧ v ≤ i64Max := by
  cases x with
  | nil => simp [nomI64, signP] at h
  | cons c cs =>
    by_cases hm : c = '-'
    · subst hm
      rw [nomI64_minus] at h
      cases cs with
      | nil => exact Option.noConfusion h
      | cons c2 cs2 =>
        obtain ⟨ds, h1, h2, h3, h4, h5⟩ :=
          digitLoop_inv h (by decide) (by decide)
        have hds : ds ≠ [] := h3 rfl (by simp)
        exact ⟨['-'], ds, by rw [List.singleton_append, h1], Or.inr (Or.inl rfl),
          hds, h2, h4, h5⟩
    · by_cases hp : c = '+'
      · subst hp
        rw [nomI64_plus] at h
        cases cs with
        | nil => exact Option.noConfusion h
        | cons c2 cs2 =>
          obtain ⟨ds, h1, h2, h3, h4, h5⟩ :=
            digitLoop_inv h (by decide) (by decide)
          have hds : ds ≠ [] := h3 rfl (by simp)
          exact ⟨['+'], ds, by rw [List.singleton_append, h1], Or.inr (Or.inr rfl),
            hds, h2, h4, h5⟩
      · rw [nomI64_other hm hp] at h
        obtain ⟨ds, h1, h2, h3, h4, h5⟩ :=
          digitLoop_inv h (by decide) (by decide)
        have hds : ds ≠ [] := h3 rfl (by simp)
        exact ⟨[], ds, by rw [List.nil_append, h1], Or.inl rfl, hds, h2, h4, h5⟩

theorem number_inv {s r : List Char} {t : Term} (h : number s = some (r, t)) :
    ∃ (w sgn ds rest : List Char) (v : Int),
      s = w ++ (sgn ++ (ds ++ rest)) ∧ (∀ c ∈ w, isWhitespaceChar c = true) ∧
      (sgn = [] ∨ sgn = ['-'] ∨ sgn = ['+']) ∧ ds ≠ [] ∧
      (∀ c ∈ ds, c.isDigit = true) ∧ r = multispace0 rest ∧
      t = Term.number v ∧ i64Min ≤ v ∧ v ≤ i64Max := by
  unfold number at h
  cases hn : nomI64 (multispace0 s) with
  | none =>
    rw [hn] at h
    exact Option.noConfusion h
  | some p =>
    obtain ⟨r0, v⟩ := p
    rw [hn] at h
    simp only [Option.some.injEq, Prod.mk.injEq] at h
    obtain ⟨sgn, ds, h1, h2, h3, h4, h5, h6⟩ := nomI64_inv hn
    refine ⟨s.takeWhile isWhitespaceChar, sgn, ds, r0, v, ?_, ?_, h2, h3, h4,
      h.1.symm, h.2.symm, h5, h6⟩
    · rw [← h1]
      exact (List.takeWhile_append_dropWhile (p := isWhitespaceChar) (l := s)).symm
    · intro c hc
      exact List.mem_takeWhile_imp hc

end NumberInversion

section FailureHelpers

theorem digit_ne_t {c : Char} (h : c.isDigit = true) : ¬c = 't' :=
  fun hc => absurd h (by rw [hc]; decide)

theorem digit_ne_f {c : Char} (h : c.isDigit = true) : ¬c = 'f' :=
  fun hc => absurd h (by rw [hc]; decide)

theorem digit_ne_lparen {c : Char} (h : c.isDigit = true) : ¬c = '(' :=
  fun hc => absurd h (by rw [hc]; decide)

theorem factor_none_all {s : List Char} (hnum : number s = none)
    (hbool : boolean s = none) (hlp : wsChar '(' s = none) :
    ∀ n, factor n s = none := by
  intro n
  cases n with
  | zero => rfl
  | succ n =>
    rw [factor_succ]
    simp only [hnum, hbool, hlp]

theorem term_none_all {s : List Char} (hf : ∀ n, factor n s = none) :
    ∀ n, term n s = none := by
  intro n
  cases n with
  | zero => rfl
  | succ n =>
    rw [term_succ]
    simp only [hf n]

theorem expr_none_all {s : List Char} (ht : ∀ n, term n s = none) :
    ∀ n, expr n s = none := by
  intro n
  cases n with
  | zero => rfl
  | succ n =>
    rw [expr_succ]
    simp only [ht n]

theorem parse_error_of_atoms (input : String) (hnum : number input.data = none)
    (hbool : boolean input.data = none) (hlp : wsChar '(' input.data = none) :
    parse input = Except.error ParseError.mk := by
  unfold parse
  rw [expr_none_all (term_none_all (factor_none_all hnum hbool hlp)) _]

end FailureHelpers

section PairCount

theorem many0Plus_pairs_le_one (n : Nat) (s : List Char)
    (hb : 3 * s.length + 3 ≤ n) :
    ∀ r ps, many0Plus n s = some (r, ps) → ps.length ≤ 1 := by
  intro r ps h
  cases n with
  | zero => omega
  | succ n =>
    rw [many0Plus_succ] at h
    cases hP : wsChar '+' s with
    | none =>
      simp only [hP, Option.some.injEq, Prod.mk.injEq] at h
      rw [← h.2]
      simp
    | some s0 =>
      simp only [hP] at h
      cases hT : term n s0 with
      | none =>
        simp only [hT, Option.some.injEq, Prod.mk.injEq] at h
        rw [← h.2]
        simp
      | some p =>
        obtain ⟨s1, t⟩ := p
        simp only [hT] at h
        split at h
        · exact Option.noConfusion h
        · cases hM : many0Plus n s1 with
          | none =>
            simp only [hM] at h
            exact Option.noConfusion h
          | some q =>
            obtain ⟨r2, ps2⟩ := q
            simp only [hM, Option.some.injEq, Prod.mk.injEq] at h
            have hs0 : s0.length < s.length := wsChar_length hP
            have hs1 : s1.length < s0.length := term_length hT
            have hpost := term_post (show 3 * s0.length + 2 ≤ n by omega) hT
            cases n with
            | zero => omega
            | succ n2 =>
              rw [many0Plus_succ] at hM
              have hpt := hpost n2 (by omega)
              unfold plusTerm at hpt
              cases hP2 : wsChar '+' s1 with
              | none =>
                simp only [hP2, Option.some.injEq, Prod.mk.injEq] at hM
                rw [← h.2, ← hM.2]
                simp
              | some s02 =>
                simp only [hP2] at hpt hM
                simp only [hpt, Option.some.injEq, Prod.mk.injEq] at hM
                rw [← h.2, ← hM.2]
                simp

theorem many0Plus_singleton_inv {m : Nat} {x r : List Char} {b : Term}
    (h : many0Plus m x = some (r, [b])) : plusTerm (m - 1) x = some (r, b) := by
  cases m with
  | zero => simp [many0Plus_zero] at h
  | succ m =>
    rw [many0Plus_succ] at h
    cases hP : wsChar '+' x with
    | none =>
      simp only [hP, Option.some.injEq, Prod.mk.injEq] at h
      exact absurd h.2 (by simp)
    | some x0 =>
      simp only [hP] at h
      cases hT : term m x0 with
      | none =>
        simp only [hT, Option.some.injEq, Prod.mk.injEq] at h
        exact absurd h.2 (by simp)
      | some p =>
        obtain ⟨s1, t⟩ := p
        simp only [hT] at h
        split at h
        · exact Option.noConfusion h
        · cases hM : many0Plus m s1 with
          | none =>
            simp only [hM] at h
            exact Option.noConfusion h
          | some q =>
            obtain ⟨r2, ps2⟩ := q
            simp only [hM, Option.some.injEq, Prod.mk.injEq] at h
            have hb2 : t = b := by
              have := h.2
              simp only [List.cons.injEq] at this
              exact this.1
            have hps : ps2 = [] := by
              have := h.2
              simp only [List.cons.injEq] at this
              exact this.2
            rw [hps] at hM
            have hr : r2 = s1 := many0Plus_nil_inv hM
            unfold plusTerm
            rw [Nat.succ_sub_one, hP]
            show term m x0 = some (r, b)
            rw [hT, hb2, ← hr, h.1]

theorem term_shape (n : Nat) (s : List Char) (hb : 3 * s.length + 2 ≤ n) :
    ∀ r t, term n s = some (r, t) →
      ∃ s1 a, factor (n - 1) s = some (s1, a) ∧
        ((t = a ∧ r = s1) ∨ ∃ s2 b, plusTerm (n - 1) s1 = some (s2, b) ∧
          t = Term.addition a b ∧ r = s2) := by
  intro r t h
  cases n with
  | zero => omega
  | succ n =>
    rw [term_succ] at h
    cases hF : factor n s with
    | none =>
      simp only [hF] at h
      exact Option.noConfusion h
    | some p =>
      obtain ⟨s1, a⟩ := p
      simp only [hF] at h
      cases hM : many0Plus n s1 with
      | none =>
        simp only [hM] at h
        exact Option.noConfusion h
      | some q =>
        obtain ⟨s2, ps⟩ := q
        simp only [hM, Option.some.injEq, Prod.mk.injEq] at h
        have hs1 : s1.length < s.length := factor_length hF
        have hle := many0Plus_pairs_le_one n s1 (by omega) s2 ps hM
        refine ⟨s1, a, by rw [Nat.succ_sub_one]; exact hF, ?_⟩
        cases ps with
        | nil =>
          left
          constructor
          · rw [← h.2]
            rfl
          · rw [← h.1]
            exact many0Plus_nil_inv hM
        | cons b ps2 =>
          cases ps2 with
          | nil =>
            right
            have hpt := many0Plus_singleton_inv hM
            have hs2 : s2.length ≤ s1.length := many0Plus_length hM
            have hstab : plusTerm n s1 = plusTerm (n - 1) s1 := by
              cases n with
              | zero => omega
              | succ n2 =>
                rw [Nat.succ_sub_one]
                exact plusTerm_stable s1 n2 (n2 + 1) (by omega) (by omega)
            refine ⟨s2, b, ?_, ?_, h.1.symm⟩
            · rw [Nat.succ_sub_one, hstab]
              exact hpt
            · rw [← h.2]
              rfl
          | cons b2 ps3 =>
            simp at hle

end PairCount

section Claims

/-- Claim C1: for every chain of three or more plus-joined atoms, parse
returns a right-nested tree: a + b + c parses as
Addition(a, Addition(b, c)); in particular parse of the text 1 + 2 + 3
returns Addition(Number 1, Addition(Number 2, Number 3)). -/
theorem claim1 :
    (∀ (f g k : SFactor) (ks : List SFactor) (t u v : Term) (ts : List Term),
      goodF f = true → goodF g = true → goodF k = true →
      (∀ x ∈ ks, goodF x = true) →
      denoteF f = some t → denoteF g = some u → denoteF k = some v →
      List.Forall₂ (fun x w => denoteF x = some w) ks ts →
      parse (String.mk (renderT (chainT f (g :: k :: ks)))) =
        Except.ok (Term.addition t (Term.addition u (rightNest v ts)))) ∧
    parse "1 + 2 + 3" =
      Except.ok (Term.addition (Term.number 1)
        (Term.addition (Term.number 2) (Term.number 3))) := by
  constructor
  · intro f g k ks t u v ts hf hg hk hks hdf hdg hdk hdks
    have hgood : goodT (chainT f (g :: k :: ks)) = true := by
      apply chainT_good f _ hf
      intro x hx
      rcases List.mem_cons.1 hx with h1 | hx2
      · rw [h1]; exact hg
      · rcases List.mem_cons.1 hx2 with h2 | hx3
        · rw [h2]; exact hk
        · exact hks x hx3
    have hden : denoteT (chainT f (g :: k :: ks)) =
        some (rightNest t (u :: v :: ts)) :=
      chainT_denote f _ t (u :: v :: ts) hdf
        (List.Forall₂.cons hdg (List.Forall₂.cons hdk hdks))
    have hp := parse_render (SExpr.base (chainT f (g :: k :: ks)))
      (rightNest t (u :: v :: ts)) (by simpa [goodE] using hgood)
      (by simpa [denoteE] using hden)
    have hre : renderE (SExpr.base (chainT f (g :: k :: ks))) =
        renderT (chainT f (g :: k :: ks)) := by simp [renderE]
    rw [hre] at hp
    rw [hp]
    simp [rightNest]
  · decide

theorem claim1_witness :
    goodF (SFactor.snum [] Bool.false ['1']) = true ∧
    parse (String.mk (renderT (chainT (SFactor.snum [] Bool.false ['1'])
        (SFactor.snum [' '] Bool.false ['2'] ::
          SFactor.snum [' '] Bool.false ['3'] :: [])))) =
      Except.ok (Term.addition (Term.number 1)
        (Term.addition (Term.number 2) (rightNest (Term.number 3) []))) :=
  ⟨by decide,
    claim1.1 (SFactor.snum [] Bool.false ['1']) (SFactor.snum [' '] Bool.false ['2'])
      (SFactor.snum [' '] Bool.false ['3']) [] (Term.number 1) (Term.number 2)
      (Term.number 3) [] (by decide) (by decide) (by decide)
      (by intro x hx; simp at hx) (by decide) (by decide) (by decide)
      List.Forall₂.nil⟩

/-- Claim C2: parse is all-or-nothing: whenever the condition-level rule
succeeds on the full input but leaves a nonempty remainder, parse returns the
error value; in particular parse of the texts 1 2 and (1 + 2 fail, and no
partial AST is returned. -/
theorem claim2 :
    (∀ (input : String) (r : List Char) (t : Term),
      expr (3 * input.length + 3) input.data = some (r, t) → r ≠ [] →
      parse input = Except.error ParseError.mk) ∧
    parse "1 2" = Except.error ParseError.mk ∧
    parse "(1 + 2" = Except.error ParseError.mk := by
  refine ⟨?_, by decide, by decide⟩
  intro input r t h hr
  unfold parse
  rw [h]
  show (if r = [] then Except.ok t else Except.error ParseError.mk) =
    Except.error ParseError.mk
  rw [if_neg hr]

theorem claim2_witness :
    (expr (3 * ("1 2").length + 3) (("1 2").data) =
      some (['2'], Term.number 1) ∧ (['2'] : List Char) ≠ []) ∧
    parse "1 2" = Except.error ParseError.mk :=
  ⟨⟨by decide, by decide⟩,
    claim2.1 "1 2" ['2'] (Term.number 1) (by decide) (by decide)⟩

/-- Claim C3: the condition-level rule parses one addition-level expression;
when a question mark follows, it parses the consequent as a full
condition-level expression, requires a colon, parses the alternative as a
full condition-level expression and returns a Condition node; when no
question mark follows it returns the addition-level result unchanged.  In
particular parse of the text true ? 1 : 2 returns
Condition(True, Number 1, Number 2). -/
theorem claim3 :
    (∀ (n : Nat) (s s1 : List Char) (c : Term),
      term n s = some (s1, c) →
      (∀ (s2 s3 s4 s5 : List Char) (q a : Term),
        wsChar '?' s1 = some s2 → expr n s2 = some (s3, q) →
        wsChar ':' s3 = some s4 → expr n s4 = some (s5, a) →
        expr (n + 1) s = some (s5, Term.condition c q a)) ∧
      (wsChar '?' s1 = none → expr (n + 1) s = some (s1, c))) ∧
    parse "true ? 1 : 2" =
      Except.ok (Term.condition Term.true (Term.number 1) (Term.number 2)) := by
  refine ⟨?_, by decide⟩
  intro n s s1 c hT
  constructor
  · intro s2 s3 s4 s5 q a hQ hE1 hC hE2
    rw [expr_succ]
    simp only [hT, hQ, hE1, hC, hE2]
  · intro hQ
    rw [expr_succ]
    simp only [hT, hQ]

theorem claim3_witness :
    term 20 (("true ? 1 : 2").toList) = some (("? 1 : 2").toList, Term.true) ∧
    expr 21 (("true ? 1 : 2").toList) =
      some ([], Term.condition Term.true (Term.number 1) (Term.number 2)) :=
  ⟨by decide,
    (claim3.1 20 (("true ? 1 : 2").toList) (("? 1 : 2").toList) Term.true
        (by decide)).1
      (("1 : 2").toList) ((": 2").toList) (("2").toList) [] (Term.number 1)
      (Term.number 2) (by decide) (by decide) (by decide) (by decide)⟩

/-- Claim C4: on inputs long enough for the fuel bound, the many0 repetition
inside the addition-level rule matches at most one pair, and the result of
the rule is either the left atom unchanged or exactly
Addition(atom, result of the recursive call). -/
theorem claim4 : ∀ (n : Nat) (s : List Char),
    (3 * s.length + 3 ≤ n →
      ∀ r ps, many0Plus n s = some (r, ps) → ps.length ≤ 1) ∧
    (3 * s.length + 2 ≤ n →
      ∀ r t, term n s = some (r, t) →
        ∃ s1 a, factor (n - 1) s = some (s1, a) ∧
          ((t = a ∧ r = s1) ∨
            ∃ s2 b, plusTerm (n - 1) s1 = some (s2, b) ∧
              t = Term.addition a b ∧ r = s2)) := by
  intro n s
  exact ⟨fun hb => many0Plus_pairs_le_one n s hb, fun hb => term_shape n s hb⟩

theorem claim4_witness :
    (3 * ((" + 2").toList.length) + 3 ≤ 30 ∧
      many0Plus 30 ((" + 2").toList) = some ([], [Term.number 2])) ∧
    ([Term.number 2] : List Term).length ≤ 1 :=
  ⟨⟨by decide, by decide⟩,
    (claim4 30 ((" + 2").toList)).1 (by decide) [] [Term.number 2] (by decide)⟩

/-- Claim C5: whitespace insensitivity: two wellformed surface expressions
with the same tokens but different whitespace pads parse to the same result;
in particular parse of the text 1+2 equals parse of the text 1 + 2. -/
theorem claim5 :
    (∀ e1 e2 : SExpr, goodE e1 = true → goodE e2 = true →
      eraseE e1 = eraseE e2 →
      parse (String.mk (renderE e1)) = parse (String.mk (renderE e2))) ∧
    parse "1+2" = parse "1 + 2" := by
  refine ⟨?_, by decide⟩
  intro e1 e2 hg1 hg2 herase
  have h1 := denoteE_isSome e1 hg1
  cases hd1 : denoteE e1 with
  | none =>
    rw [hd1] at h1
    simp at h1
  | some t =>
    have hd2 : denoteE e2 = some t := by
      rw [← denoteE_erase e2, ← herase, denoteE_erase e1, hd1]
    rw [parse_render e1 t hg1 hd1, parse_render e2 t hg2 hd2]

theorem claim5_witness :
    goodE (SExpr.base (STerm.splus (SFactor.snum [] Bool.false ['1']) []
      (STerm.single (SFactor.snum [] Bool.false ['2'])))) = true ∧
    parse (String.mk (renderE (SExpr.base
      (STerm.splus (SFactor.snum [] Bool.false ['1']) []
        (STerm.single (SFactor.snum [] Bool.false ['2'])))))) =
    parse (String.mk (renderE (SExpr.base
      (STerm.splus (SFactor.snum [] Bool.false ['1']) [' ']
        (STerm.single (SFactor.snum [' '] Bool.false ['2'])))))) :=
  ⟨by decide,
    claim5.1
      (SExpr.base (STerm.splus (SFactor.snum [] Bool.false ['1']) []
        (STerm.single (SFactor.snum [] Bool.false ['2']))))
      (SExpr.base (STerm.splus (SFactor.snum [] Bool.false ['1']) [' ']
        (STerm.single (SFactor.snum [' '] Bool.false ['2']))))
      (by decide) (by decide) rfl⟩

/-- Claim C6 counterexample: the number alternative also accepts an optional
leading plus sign, which the claim excludes: the input +5 is accepted by the
number rule and parses to Number 5. -/
theorem claim6_counterexample :
    number ['+', '5'] = some ([], Term.number 5) ∧
    parse "+5" = Except.ok (Term.number 5) := by
  constructor <;> decide

/-- Claim C6 as amended: the number alternative accepts exactly an optional
leading minus or plus sign followed by one or more decimal digits, with
surrounding whitespace consumed and discarded, parsed as a signed 64-bit
integer producing Number; in particular parse of 123 gives Number 123 and
parse of -5 gives Number (-5). -/
theorem claim6_amended :
    (∀ (p : List Char) (neg : Bool) (ds rest : List Char) (v : Int),
      (∀ c ∈ p, isWhitespaceChar c = true) → ds ≠ [] →
      (∀ c ∈ ds, c.isDigit = true) →
      (∀ c, rest.head? = some c → c.isDigit = false) →
      digitsVal neg 0 ds = some v →
      number (p ++ (if neg then '-' :: ds else ds) ++ rest) =
        some (multispace0 rest, Term.number v)) ∧
    (∀ (s r : List Char) (t : Term), number s = some (r, t) →
      ∃ (w sgn ds rest : List Char) (v : Int),
        s = w ++ (sgn ++ (ds ++ rest)) ∧ (∀ c ∈ w, isWhitespaceChar c = true) ∧
        (sgn = [] ∨ sgn = ['-'] ∨ sgn = ['+']) ∧ ds ≠ [] ∧
        (∀ c ∈ ds, c.isDigit = true) ∧ r = multispace0 rest ∧
        t = Term.number v ∧ i64Min ≤ v ∧ v ≤ i64Max) ∧
    parse "123" = Except.ok (Term.number 123) ∧
    parse "-5" = Except.ok (Term.number (-5)) :=
  ⟨fun _ _ _ _ _ hp hne hds hrest hv => number_render hp hne hds hrest hv,
    fun _ _ _ h => number_inv h, by decide, by decide⟩

theorem claim6_witness :
    digitsVal Bool.false 0 ['7'] = some 7 ∧
    number ([] ++ (if Bool.false then '-' :: ['7'] else ['7']) ++ []) =
      some (multispace0 [], Term.number 7) :=
  ⟨by decide,
    claim6_amended.1 [] Bool.false ['7'] [] 7 (by simp) (by decide) (by decide)
      (by intro c hc; simp at hc) (by decide)⟩

/-- Claim C7: a numeric literal whose value exceeds the signed 64-bit range
makes parse fail with the error value rather than wrapping around; in
particular the input 9223372036854775808 fails. -/
theorem claim7 :
    (∀ m : Nat, i64Max < (m : Int) →
      parse (String.mk (natDigits m)) = Except.error ParseError.mk) ∧
    parse "9223372036854775808" = Except.error ParseError.mk := by
  refine ⟨?_, by decide⟩
  intro m hm
  have hne := natDigits_ne_nil m
  have hdig := natDigits_digits m
  obtain ⟨c, cs, hnd⟩ : ∃ c cs, natDigits m = c :: cs := by
    cases h2 : natDigits m with
    | nil => exact absurd h2 hne
    | cons c cs => exact ⟨c, cs, rfl⟩
  have hc : c.isDigit = true := by
    apply hdig
    rw [hnd]
    simp
  have hms : multispace0 (natDigits m) = c :: cs := by
    rw [hnd]
    exact ms0_cons_not (digit_not_ws hc) _
  apply parse_error_of_atoms
  · show number (natDigits m) = none
    unfold number
    rw [hms, nomI64_other (digit_ne_minus hc) (digit_ne_plus hc)]
    rw [show c :: cs = (c :: cs) ++ ([] : List Char) from (List.append_nil _).symm]
    rw [digitLoop_digits (by simp) (by rw [← hnd]; exact hdig)
      (by intro x hx; simp at hx) Bool.false 0]
    rw [← hnd, digitsVal_natDigits_none hm]
  · show boolean (natDigits m) = none
    exact boolean_none_of_head hms (digit_ne_t hc) (digit_ne_f hc)
  · show wsChar '(' (natDigits m) = none
    apply wsChar_head_ne
    intro hh
    rw [hms] at hh
    simp at hh
    exact digit_ne_lparen hc hh

theorem claim7_witness :
    i64Max < ((9223372036854775808 : Nat) : Int) ∧
    parse (String.mk (natDigits 9223372036854775808)) =
      Except.error ParseError.mk :=
  ⟨by decide, claim7.1 9223372036854775808 (by decide)⟩

/-- Claim C8: the atom rule tries number, then boolean, then the
parenthesized alternative, and the first alternative that matches wins; the
parenthesized form consumes an opening parenthesis, recurses into the full
condition-level rule, and consumes a closing parenthesis. -/
theorem claim8 : ∀ (n : Nat) (s : List Char),
    (∀ r, number s = some r → factor (n + 1) s = some r) ∧
    (∀ r, number s = none → boolean s = some r → factor (n + 1) s = some r) ∧
    (number s = none → boolean s = none →
      factor (n + 1) s =
        match wsChar '(' s with
        | none => none
        | some s1 =>
          match expr n s1 with
          | none => none
          | some (s2, t) =>
            match wsChar ')' s2 with
            | none => none
            | some s3 => some (s3, t)) := by
  intro n s
  refine ⟨?_, ?_, ?_⟩
  · intro r h
    rw [factor_succ]
    simp only [h]
  · intro r h1 h2
    rw [factor_succ]
    simp only [h1, h2]
  · intro h1 h2
    rw [factor_succ]
    simp only [h1, h2]

theorem claim8_witness :
    number ['1'] = some ([], Term.number 1) ∧
    factor 1 ['1'] = some ([], Term.number 1) :=
  ⟨by decide, (claim8 0 ['1']).1 ([], Term.number 1) (by decide)⟩

/-- Claim C9: parse of the empty string fails, and parse of any input made
only of whitespace characters fails: no atom alternative matches an empty
token stream. -/
theorem claim9 : ∀ s : String, (∀ c ∈ s.data, isWhitespaceChar c = true) →
    parse s = Except.error ParseError.mk := by
  intro s hws
  apply parse_error_of_atoms
  · exact number_none_of_nil (ms0_ws_only hws)
  · exact boolean_none_of_nil (ms0_ws_only hws)
  · apply wsChar_head_ne
    intro hh
    rw [ms0_ws_only hws] at hh
    simp at hh

theorem claim9_witness :
    ((∀ c ∈ ("").data, isWhitespaceChar c = true) ∧
      parse "" = Except.error ParseError.mk) ∧
    ((∀ c ∈ (" \n").data, isWhitespaceChar c = true) ∧
      parse " \n" = Except.error ParseError.mk) :=
  ⟨⟨by decide, claim9 "" (by decide)⟩,
    ⟨by decide, claim9 " \n" (by decide)⟩⟩

/-- Claim C10: parse terminates on every finite input: the fueled embedding
is stable once the fuel reaches three times the input length plus three, so
the entry point computes the same result for every sufficient fuel. -/
theorem claim10 :
    (∀ (s : List Char) (n : Nat), 3 * s.length + 3 ≤ n →
      expr n s = expr (3 * s.length + 3) s) ∧
    (∀ (input : String) (n : Nat), 3 * input.length + 3 ≤ n →
      parse input =
        match expr n input.data with
        | none => Except.error ParseError.mk
        | some (r, t) =>
          if r = [] then Except.ok t else Except.error ParseError.mk) := by
  constructor
  · exact fun s n h => expr_stable s (3 * s.length + 3) n (le_refl _) h
  · intro input n h
    unfold parse
    rw [expr_stable input.data (3 * input.data.length + 3) n (le_refl _) h]
    rfl

theorem claim10_witness :
    3 * ([('1' : Char)].length) + 3 ≤ 100 ∧
    expr 100 ['1'] = expr (3 * ([('1' : Char)].length) + 3) ['1'] :=
  ⟨by decide, claim10.1 ['1'] 100 (by decide)⟩

end Claims


end Shikumi
